import Mathlib

/-!
Verification of the combinatorial/text-processing kata set
(`src/task/10-katas-1-tasks.js`, `src/task/11-katas-2-tasks.js`).

Strings are modelled as `List Char`, JS numbers as `Int`/`Nat` (the code
only manipulates integers in the safe range, except for the `Infinity`
sentinel of `extractRanges`, modelled as `⊤ : WithTop Int`).
Each JS function is translated into an executable Lean definition that
mirrors its control flow; generators are modelled by the list of values
they yield.
-/

/-- JS `Array.prototype.indexOf`: index of the first occurrence, `-1` when absent. -/
def indexOfJS {α : Type} [BEq α] (l : List α) (x : α) : Int :=
  match l.findIdx? (· == x) with
  | some i => (i : Int)
  | none => -1

/-! ### canDominoesMakeRow (10-katas-1-tasks.js, lines 186-201)

The JS code tallies, in the sparse array `gameRow`, a signed count per pip
value: a double `[x,x]` adds `-1` to `x` twice, a plain tile `[x,y]` adds
`+1` to each of `x` and `y`.  It then counts the pip values whose tally is
negative or odd and returns whether that count is below 3.  Pip values are
array indices, hence naturals.  Unassigned indices are holes that the JS
`reduce` skips; a tally of `0` is neither negative nor odd, so modelling the
tally as a total function defaulting to `0` and counting over the values
that occur in the tiles is equivalent. -/

/-- Signed tally of pip value `v` over the tiles (the JS `gameRow[v]`). -/
def gameRow (dominoes : List (Nat × Nat)) (v : Nat) : Int :=
  dominoes.foldl (fun acc d =>
    let shift : Int := if d.1 = d.2 then -1 else 1
    acc + (if v = d.1 then shift else 0) + (if v = d.2 then shift else 0)) 0

/-- The pip values that occur in the tiles (the assigned indices of `gameRow`). -/
def pipValues (dominoes : List (Nat × Nat)) : List Nat :=
  (dominoes.map Prod.fst ++ dominoes.map Prod.snd).dedup

/-- Count of pip values with a negative or odd tally (the JS `nonPairSide`). -/
def nonPairSide (dominoes : List (Nat × Nat)) : Nat :=
  ((pipValues dominoes).filter (fun v =>
    decide (gameRow dominoes v < 0) || decide (gameRow dominoes v % 2 = 1))).length

/-- Translation of `canDominoesMakeRow`. -/
def canDominoesMakeRow (dominoes : List (Nat × Nat)) : Bool :=
  nonPairSide dominoes < 3

/-- A sequence of oriented tiles is a valid chain when each adjacent pair of
tiles shares a matching face value (right face of one = left face of the next). -/
def validChain : List (Nat × Nat) → Bool
  | [] => true
  | [_] => true
  | (_, b) :: (c, d) :: rest => decide (b = c) && validChain ((c, d) :: rest)

/-- All orientation choices of a sequence of tiles (each tile kept or flipped). -/
def orientationsList : List (Nat × Nat) → List (List (Nat × Nat))
  | [] => [[]]
  | (a, b) :: rest => (orientationsList rest).flatMap (fun t => [(a, b) :: t, (b, a) :: t])

/-- All ways to insert an element into a list. -/
def insertionsAt {α : Type} (x : α) : List α → List (List α)
  | [] => [[x]]
  | a :: rest => (x :: a :: rest) :: (insertionsAt x rest).map (a :: ·)

/-- All permutations of a list (defined by structural recursion so that it
evaluates by kernel reduction). -/
def permsOf {α : Type} : List α → List (List α)
  | [] => [[]]
  | a :: rest => (permsOf rest).flatMap (insertionsAt a)

/-- Whether some permutation and orientation of all the tiles forms a valid
chain: the property `canDominoesMakeRow` is claimed to decide. -/
def canChain (dominoes : List (Nat × Nat)) : Bool :=
  (permsOf dominoes).any (fun p => (orientationsList p).any validChain)

/-- C1: the code returns `true` on the tile multiset `[[1,1],[2,2]]`, yet no
permutation and orientation of these two tiles forms a valid chain (the tiles
share no face value), contradicting the claimed equivalence and the function's
own documentation ("Returns true if specified subset of dominoes can be placed
in a row"). -/
theorem canDominoesMakeRow_true_but_no_chain :
    canDominoesMakeRow [(1, 1), (2, 2)] = true ∧ canChain [(1, 1), (2, 2)] = false := by
  decide

/-! ### getPokerHandRank (11-katas-2-tasks.js, lines 113-163)

Cards are strings (here `List Char`); the rank is the character prefix, the
suit the last character.  `parseInt(card) === 2` holds exactly when the
card's decimal-digit prefix is nonempty and has value 2 (the card tokens
never carry signs or leading whitespace, so `parseInt`'s sign/whitespace
handling cannot fire).  The sparse JS count array `handNumbers` is modelled
as a total 13-entry count vector: the JS `filter` skips holes, and the only
counts ever compared against are 2, 3 and 4, which a default 0 never
matches. -/

/-- Rank constants of the JS `PokerRank` object. -/
def PokerRank.StraightFlush : Nat := 8

def PokerRank.FourOfKind : Nat := 7

def PokerRank.FullHouse : Nat := 6

def PokerRank.Flush : Nat := 5

def PokerRank.Straight : Nat := 4

def PokerRank.ThreeOfKind : Nat := 3

def PokerRank.TwoPairs : Nat := 2

def PokerRank.OnePair : Nat := 1

def PokerRank.HighCard : Nat := 0

/-- JS `card.slice(0, -1)`: all but the last character. -/
def getNumber (card : List Char) : List Char := card.dropLast

/-- JS `card.slice(-1)`: the last character. -/
def getType (card : List Char) : Option Char := card.getLast?

/-- Value of JS `parseInt` on a card token (decimal-digit prefix; `none` for NaN). -/
def parseIntCard (card : List Char) : Option Nat :=
  let p := card.takeWhile (·.isDigit)
  if p.isEmpty then none else some (p.foldl (fun a c => a * 10 + (c.toNat - 48)) 0)

/-- The rank symbols without the Ace, in ascending order. -/
def baseNumbers : List (List Char) :=
  [['2'], ['3'], ['4'], ['5'], ['6'], ['7'], ['8'], ['9'], ['1', '0'], ['J'], ['Q'], ['K']]

/-- The JS `numbers` list: Ace is unshifted to the front when some card parses
to the integer 2, and pushed to the back otherwise. -/
def pokerNumbers (hand : List (List Char)) : List (List Char) :=
  if hand.any (fun c => parseIntCard c == some 2) then ['A'] :: baseNumbers
  else baseNumbers ++ [['A']]

/-- The JS `countEqualTypes` reduce: running count of the trailing run of
cards whose suit equals the previous card's suit (reset to 0 on mismatch). -/
def countEqualTypesAux : Option (List Char) → Nat → List (List Char) → Nat
  | _, acc, [] => acc
  | none, acc, c :: rest => countEqualTypesAux (some c) (acc + 1) rest
  | some p, acc, c :: rest =>
    if getType c = getType p then countEqualTypesAux (some c) (acc + 1) rest
    else countEqualTypesAux (some c) 0 rest

/-- Translation of the JS `countEqualTypes` accumulator. -/
def countEqualTypes (hand : List (List Char)) : Nat := countEqualTypesAux none 0 hand

/-- The JS `handNumbers` count array: occurrences of each rank index. -/
def handNumbers (hand : List (List Char)) : List Nat :=
  (List.range 13).map (fun i =>
    (hand.filter (fun c => indexOfJS (pokerNumbers hand) (getNumber c) == (i : Int))).length)

/-- JS `countEqualNumber`: how many entries of the count array equal `count`. -/
def countEqualNumber (arr : List Nat) (count : Nat) : Nat :=
  (arr.filter (fun x => x == count)).length

/-- Insertion into a sorted list, ascending (models `sort((a, b) => a - b)`). -/
def insertSorted (x : Int) : List Int → List Int
  | [] => [x]
  | y :: ys => if x ≤ y then x :: y :: ys else y :: insertSorted x ys

/-- Ascending sort of JS `sort((a, b) => a - b)`. -/
def sortInts (l : List Int) : List Int := l.foldr insertSorted []

/-- The JS `every` check: each element is the previous plus one. -/
def consecutive : List Int → Bool
  | [] => true
  | [_] => true
  | a :: b :: rest => decide (b = a + 1) && consecutive (b :: rest)

/-- Translation of `getPokerHandRank`. -/
def getPokerHandRank (hand : List (List Char)) : Nat :=
  let numbers := pokerNumbers hand
  let hn := handNumbers hand
  let hasOrder :=
    consecutive (sortInts (hand.map (fun c => indexOfJS numbers (getNumber c))))
  let hasOneType := countEqualTypes hand == 5
  if hasOrder && hasOneType then PokerRank.StraightFlush
  else if hasOrder then PokerRank.Straight
  else if hasOneType then PokerRank.Flush
  else if countEqualNumber hn 2 != 0 && countEqualNumber hn 3 != 0 then PokerRank.FullHouse
  else if countEqualNumber hn 2 == 1 then PokerRank.OnePair
  else if countEqualNumber hn 2 == 2 then PokerRank.TwoPairs
  else if countEqualNumber hn 3 != 0 then PokerRank.ThreeOfKind
  else if countEqualNumber hn 4 != 0 then PokerRank.FourOfKind
  else PokerRank.HighCard

/-- C6: the three documented evaluations: a straight flush, the wheel straight
(Ace low only in A-2-3-4-5), and a high card. -/
theorem getPokerHandRank_examples :
    getPokerHandRank ["4♥".data, "5♥".data, "6♥".data, "7♥".data, "8♥".data] =
      PokerRank.StraightFlush ∧
    getPokerHandRank ["2♥".data, "4♦".data, "5♥".data, "A♦".data, "3♠".data] =
      PokerRank.Straight ∧
    getPokerHandRank ["A♥".data, "K♥".data, "Q♥".data, "2♦".data, "3♠".data] =
      PokerRank.HighCard := by
  decide

/-! ### parseBankAccount (11-katas-2-tasks.js, lines 36-60)

The JS code splits the input on newlines, splits each line into consecutive
3-character chunks (`split(/(.{3})/).filter(Boolean)` keeps a shorter final
chunk when the length is not a multiple of 3), accumulates chunk `i` of every
line into glyph `i` of a 9-slot accumulator initialised with empty strings,
looks each glyph up in the 10-entry table (`indexOf`, hence `-1` for an
unknown glyph) and folds the digits with `acc * 10 + num`, seeded by the
first digit (`reduce` without an initial value). -/

/-- Split a character list on a separator character (JS `split`). -/
def splitOnChar (c : Char) : List Char → List (List Char)
  | [] => [[]]
  | x :: rest =>
    match splitOnChar c rest with
    | [] => [[]]
    | g :: gs => if x = c then [] :: g :: gs else (x :: g) :: gs

/-- Consecutive 3-character chunks of a line, keeping a shorter final chunk. -/
def chunks3 : List Char → List (List Char)
  | [] => []
  | a :: b :: c :: d :: rest => [a, b, c] :: chunks3 (d :: rest)
  | s => [s]

/-- The 10-entry glyph table (`nums` in the source), digit `d` at index `d`. -/
def numsTable : List (List Char) :=
  [" _ | ||_|".data,
   "     |  |".data,
   " _  _||_ ".data,
   " _  _| _|".data,
   "   |_|  |".data,
   " _ |_  _|".data,
   " _ |_ |_|".data,
   " _   |  |".data,
   " _ |_||_|".data,
   " _ |_| _|".data]

/-- The glyph strings accumulated from the chunked lines (the JS reduce over
`Array(9).fill('')`). -/
def accGlyphs (lines : List (List (List Char))) : List (List Char) :=
  lines.foldl
    (fun acc line => (List.range 9).map (fun i => acc.getD i [] ++ line.getD i []))
    (List.replicate 9 [])

/-- The digit values decoded from the input (the `indexOf` stage; `-1` for an
unknown glyph). -/
def decodedDigits (s : List Char) : List Int :=
  (accGlyphs ((splitOnChar '\n' s).map chunks3)).map (fun g => indexOfJS numsTable g)

/-- JS `reduce((acc, num) => acc * 10 + num)` without initial value (the empty
case would throw in JS and is never reached: the accumulator has 9 slots). -/
def foldDigits : List Int → Int
  | [] => 0
  | d :: rest => rest.foldl (fun acc n => acc * 10 + n) d

/-- Translation of `parseBankAccount`. -/
def parseBankAccount (s : List Char) : Int :=
  foldDigits (decodedDigits s)

/-- The worked example block encoding the digits 1 through 9. -/
def ocrExample123456789 : List Char :=
  ("    _  _     _  _  _  _  _ \n" ++
   "  | _| _||_||_ |_   ||_||_|\n" ++
   "  ||_  _|  | _||_|  ||_| _|\n").data

/-- The documented example block whose glyphs decode to 0,2,3,0,5,6,7,8,9. -/
def ocrExample023056789 : List Char :=
  (" _  _  _  _  _  _  _  _  _ \n" ++
   "| | _| _|| ||_ |_   ||_||_|\n" ++
   "|_||_  _||_| _||_|  ||_| _|\n").data

/-- C7: the documented 3-line glyph block for the digits 1 through 9 parses to
the integer 123456789. -/
theorem parseBankAccount_example : parseBankAccount ocrExample123456789 = 123456789 := by
  decide

/-- Bound for the digit fold: starting from a nonnegative accumulator and
folding digits in `[0, 10)` stays nonnegative and below `(acc + 1) * 10 ^ len`. -/
theorem foldl_digits_bound (l : List Int) :
    ∀ acc : Int, 0 ≤ acc → (∀ d ∈ l, 0 ≤ d ∧ d < 10) →
      0 ≤ l.foldl (fun a n => a * 10 + n) acc ∧
      l.foldl (fun a n => a * 10 + n) acc < (acc + 1) * 10 ^ l.length := by
  induction l with
  | nil => intro acc hacc _; simpa using hacc
  | cons d rest ih =>
    intro acc hacc h
    have hd := h d (by simp)
    have hacc' : (0 : Int) ≤ acc * 10 + d := by nlinarith [hd.1]
    have hrest : ∀ x ∈ rest, 0 ≤ x ∧ x < 10 := fun x hx => h x (by simp [hx])
    obtain ⟨h1, h2⟩ := ih (acc * 10 + d) hacc' hrest
    refine ⟨by simpa using h1, ?_⟩
    have hstep : (acc * 10 + d + 1) * 10 ^ rest.length ≤ (acc + 1) * 10 ^ (rest.length + 1) := by
      have hpow : (0 : Int) < 10 ^ rest.length := by positivity
      have : acc * 10 + d + 1 ≤ (acc + 1) * 10 := by nlinarith [hd.2]
      calc (acc * 10 + d + 1) * 10 ^ rest.length
          ≤ ((acc + 1) * 10) * 10 ^ rest.length := by
            exact mul_le_mul_of_nonneg_right this (le_of_lt hpow)
        _ = (acc + 1) * 10 ^ (rest.length + 1) := by ring
    have h2' : (d :: rest).foldl (fun a n => a * 10 + n) acc <
        (acc * 10 + d + 1) * 10 ^ rest.length := by simpa using h2
    calc (d :: rest).foldl (fun a n => a * 10 + n) acc
        < (acc * 10 + d + 1) * 10 ^ rest.length := h2'
      _ ≤ (acc + 1) * 10 ^ (rest.length + 1) := hstep
      _ = (acc + 1) * 10 ^ (d :: rest).length := by simp

/-- The glyph accumulator always has exactly 9 slots. -/
theorem accGlyphs_length (lines : List (List (List Char))) :
    (accGlyphs lines).length = 9 := by
  suffices h : ∀ acc : List (List Char), acc.length = 9 →
      (lines.foldl
        (fun acc line => (List.range 9).map (fun i => acc.getD i [] ++ line.getD i []))
        acc).length = 9 by
    exact h (List.replicate 9 []) (by simp)
  induction lines with
  | nil => intro acc hacc; simpa using hacc
  | cons line rest ih => intro acc _; exact ih _ (by simp)

/-- The decoded digit list always has exactly 9 entries. -/
theorem decodedDigits_length (s : List Char) : (decodedDigits s).length = 9 := by
  unfold decodedDigits
  simp [accGlyphs_length]

/-- C10: whenever every decoded digit is a valid digit (the glyphs all match
the table), the returned integer is below `10 ^ 9`, and below `10 ^ 8` when the
leftmost glyph decodes to 0; the documented block decoding to 0,2,3,0,5,6,7,8,9
returns 23056789. -/
theorem parseBankAccount_leading_zero_bounds :
    (∀ s : List Char, (∀ d ∈ decodedDigits s, 0 ≤ d ∧ d < 10) →
      parseBankAccount s < 10 ^ 9 ∧
      ((decodedDigits s).head? = some 0 → parseBankAccount s < 10 ^ 8)) ∧
    parseBankAccount ocrExample023056789 = 23056789 := by
  constructor
  · intro s h
    have hlen : (decodedDigits s).length = 9 := decodedDigits_length s
    have hpb : parseBankAccount s = foldDigits (decodedDigits s) := rfl
    match hds : decodedDigits s with
    | [] => rw [hds] at hlen; simp at hlen
    | d :: rest =>
      rw [hds] at hlen h
      have hrestlen : rest.length = 8 := by simpa using hlen
      have hd := h d (by simp)
      have hrest : ∀ x ∈ rest, 0 ≤ x ∧ x < 10 := fun x hx => h x (by simp [hx])
      obtain ⟨-, hlt⟩ := foldl_digits_bound rest d hd.1 hrest
      rw [hrestlen] at hlt
      have hfold : parseBankAccount s = rest.foldl (fun a n => a * 10 + n) d := by
        rw [hpb, hds]; rfl
      constructor
      · rw [hfold]
        have : (d + 1) * 10 ^ 8 ≤ 10 ^ 9 := by nlinarith [hd.2]
        exact lt_of_lt_of_le hlt this
      · intro hhead
        have hd0 : d = 0 := by simpa using hhead
        subst hd0
        rw [hfold]
        simpa using hlt
  · decide

/-- Witness for C10 at the documented leading-zero block. -/
theorem parseBankAccount_leading_zero_bounds_witness :
    parseBankAccount ocrExample023056789 < 10 ^ 9 ∧
    parseBankAccount ocrExample023056789 < 10 ^ 8 :=
  ⟨(parseBankAccount_leading_zero_bounds.1 ocrExample023056789 (by decide)).1,
   (parseBankAccount_leading_zero_bounds.1 ocrExample023056789 (by decide)).2 (by decide)⟩

/-! ### extractRanges (10-katas-1-tasks.js, lines 223-240)

The JS function first executes `nums.push(Infinity)`, mutating the caller's
array (nothing later removes the sentinel).  JS numbers with the `Infinity`
sentinel are modelled as `WithTop Int` (`⊤ + 1 = ⊤` matches
`Infinity + 1 === Infinity`); `extractRangesPushed` is the content of the
caller's array from the `push` on, i.e. after the call returns.  The `reduce`
without initial value visits indices `1 .. length - 1`; its accumulator is
always the previous element, and the running `startIndex` plus the flushed
`ranges` are the explicit fold state.  `toString` renders a group of more
than two numbers as `first-last` (`shift`/`pop`) and a shorter group as its
comma-joined elements; the final result is the comma-join of the rendered
groups. -/

/-- The decimal digit character for a value below 10. -/
def digitChar (n : Nat) : Char :=
  match n with
  | 0 => '0' | 1 => '1' | 2 => '2' | 3 => '3' | 4 => '4'
  | 5 => '5' | 6 => '6' | 7 => '7' | 8 => '8' | _ => '9'

/-- Decimal digits of a natural number, fuel-based so that it is structural
and evaluates by kernel reduction (any fuel above the number suffices). -/
def natDigitsAux : Nat → Nat → List Char
  | 0, _ => []
  | fuel + 1, n =>
    if n < 10 then [digitChar n]
    else natDigitsAux fuel (n / 10) ++ [digitChar (n % 10)]

/-- Decimal digits of a natural number (JS number-to-string for naturals). -/
def natDigits (n : Nat) : List Char := natDigitsAux (n + 1) n

/-- JS number-to-string on integers (decimal, `-` sign for negatives). -/
def intStr (i : Int) : List Char :=
  if i < 0 then '-' :: natDigits i.natAbs else natDigits i.toNat

/-- JS number-to-string on the modelled number type (`Infinity` at `⊤`). -/
def jsNumStr (x : WithTop Int) : List Char :=
  x.recTopCoe ("Infinity".data) (fun i => intStr i)

/-- Inclusion of the integers into the modelled JS number type. -/
def toJs (i : Int) : WithTop Int := (i : WithTop Int)

/-- The caller's array after `nums.push(Infinity)` (its content from that
statement on: the sentinel is never removed). -/
def extractRangesPushed (nums : List Int) : List (WithTop Int) :=
  nums.map toJs ++ [⊤]

/-- The body of the JS `reduce` of `extractRanges`: at `endIndex`, the
accumulator is the previous element; when the previous element plus one is
below the current one, `nums.slice(startIndex, endIndex)` is flushed and
`startIndex` becomes `endIndex`. -/
def rangesStep (pushed : List (WithTop Int)) (st : Nat × List (List (WithTop Int)))
    (endIndex : Nat) : Nat × List (List (WithTop Int)) :=
  let acc := pushed.getD (endIndex - 1) ⊤
  let value := pushed.getD endIndex ⊤
  if acc + 1 < value then
    (endIndex, st.2 ++ [(pushed.drop st.1).take (endIndex - st.1)])
  else st

/-- The JS `reduce` of `extractRanges`: walking indices `1 .. length - 1`, it
threads `(startIndex, ranges)` as state through `rangesStep`; the flushed
groups are the result. -/
def rangesLoop (pushed : List (WithTop Int)) : List (List (WithTop Int)) :=
  (((List.range pushed.length).drop 1).foldl (rangesStep pushed)
    ((0 : Nat), ([] : List (List (WithTop Int))))).2

/-- JS `Array.prototype.join()` (comma separator). -/
def joinComma (parts : List (List Char)) : List Char := List.intercalate [','] parts

/-- The JS `toString` helper of `extractRanges`. -/
def groupToString (arr : List (WithTop Int)) : List Char :=
  if arr.length > 2 then jsNumStr (arr.headD ⊤) ++ '-' :: jsNumStr (arr.getLastD ⊤)
  else joinComma (arr.map jsNumStr)

/-- Translation of `extractRanges` (the returned string). -/
def extractRanges (nums : List Int) : List Char :=
  joinComma ((rangesLoop (extractRangesPushed nums)).map groupToString)

/-- Numeric value of a list of decimal digit characters. -/
def digitsValInt (cs : List Char) : Int :=
  cs.foldl (fun a c => a * 10 + ((c.toNat : Int) - 48)) 0

/-- Parse an integer token: optional leading minus sign, then decimal digits. -/
def parseIntToken (t : List Char) : Int :=
  match t with
  | [] => digitsValInt []
  | c :: rest => if c = '-' then -(digitsValInt rest) else digitsValInt (c :: rest)

/-- Split at the first occurrence of a dash. -/
def splitDashAux : List Char → Option (List Char × List Char)
  | [] => none
  | c :: rest =>
    if c = '-' then some ([], rest)
    else (splitDashAux rest).map (fun p => (c :: p.1, p.2))

/-- Split a token at the first dash occurring strictly after the first
character, so that a leading minus sign is not taken for a range dash. -/
def splitDash : List Char → Option (List Char × List Char)
  | [] => none
  | c :: rest => (splitDashAux rest).map (fun p => (c :: p.1, p.2))

/-- All integers from `a` to `b` inclusive. -/
def intsFromTo (a b : Int) : List Int :=
  (List.range (b - a + 1).toNat).map (fun (k : Nat) => a + (k : Int))

/-- Parse one comma-separated token: a dash range `start-end` expands to every
integer from `start` to `end` inclusive; a plain number stands for itself. -/
def parseToken (t : List Char) : List Int :=
  match splitDash t with
  | some p => intsFromTo (parseIntToken p.1) (parseIntToken p.2)
  | none => [parseIntToken t]

/-- Parse the output format back into integers: split on commas and expand
each token (the empty string stands for the empty sequence). -/
def parseRanges (s : List Char) : List Int :=
  if s.isEmpty then [] else (splitOnChar ',' s).flatMap parseToken

/-- C8: after `extractRanges([1,2,3])` returns, the caller's array holds
`[1, 2, 3, Infinity]` — four elements instead of the original three — so the
call observably mutates its argument. -/
theorem extractRanges_mutates_caller_array :
    extractRangesPushed [1, 2, 3] = [(1 : WithTop Int), (2 : WithTop Int), (3 : WithTop Int), ⊤] ∧
    (extractRangesPushed [1, 2, 3]).length = 3 + 1 := by
  decide

example : extractRanges [0, 1, 2, 5, 7, 8, 9] = ("0-2,5,7-9").data := by decide

example : extractRanges [1, 4, 5] = ("1,4,5").data := by decide

example : extractRanges [] = [] := by decide

example : extractRanges [-3, -2, -1, 4] = ("-3--1,4").data := by decide

example : parseRanges (("-3--1,4").data) = [-3, -2, -1, 4] := by decide

/-- Gap-splitting of a list of numbers: a new group starts exactly where the
previous element plus one is below the current one (the flush condition of
`rangesStep`). -/
def gapSplit : List (WithTop Int) → List (List (WithTop Int))
  | [] => [[]]
  | [x] => [[x]]
  | x :: y :: rest =>
    match gapSplit (y :: rest) with
    | [] => []
    | g :: gs => if x + 1 < y then [x] :: g :: gs else (x :: g) :: gs

/-- The first group of a gap-splitting starts with the first element. -/
theorem gapSplit_head : ∀ (x : WithTop Int) (rest : List (WithTop Int)),
    ∃ t gs, gapSplit (x :: rest) = (x :: t) :: gs
  | _, [] => ⟨[], [], rfl⟩
  | x, y :: rest => by
    obtain ⟨t, gs, h⟩ := gapSplit_head y rest
    by_cases hxy : x + 1 < y
    · exact ⟨[], (y :: t) :: gs, by simp [gapSplit, h, hxy]⟩
    · exact ⟨y :: t, gs, by simp [gapSplit, h, hxy]⟩

/-- Invariant of the `extractRanges` fold: from state `(s, R)` at index `k`,
the indices `k .. length - 1` flush `R` followed by every group of the
gap-splitting of the remaining elements except the last, the first such group
being the pending slice extended by the current run. -/
theorem rangesLoop_go (l : List (WithTop Int)) (k s : Nat) (R : List (List (WithTop Int)))
    (t : List (WithTop Int)) (gs : List (List (WithTop Int)))
    (hk1 : 1 ≤ k) (hkn : k ≤ l.length) (hsk : s < k)
    (hg : gapSplit (l.drop (k - 1)) = (l.getD (k - 1) ⊤ :: t) :: gs) :
    ((List.range' k (l.length - k)).foldl (rangesStep l) (s, R)).2 =
      R ++ (((l.drop s).take (k - s) ++ t) :: gs).dropLast := by
  rcases Nat.eq_or_lt_of_le hkn with heq | hlt
  · have hrange : l.length - k = 0 := by omega
    have hk1lt : k - 1 < l.length := by omega
    have hdrop1 : l.drop (k - 1) = l[k - 1] :: l.drop k := by
      have := List.drop_eq_getElem_cons hk1lt
      rwa [show k - 1 + 1 = k by omega] at this
    have hdropk : l.drop k = [] := by
      apply List.drop_eq_nil_of_le; omega
    have hget : l.getD (k - 1) ⊤ = l[k - 1] := by
      simp [List.getD_eq_getElem?_getD, List.getElem?_eq_getElem hk1lt]
    rw [hdrop1, hdropk, hget] at hg
    have hg' : ([[l[k - 1]]] : List (List (WithTop Int))) = (l[k - 1] :: t) :: gs := by
      rw [show ((gapSplit [l[k - 1]] : List (List (WithTop Int))) = [[l[k - 1]]]) from rfl] at hg
      exact hg
    have ht : t = [] := by
      have h1 := (List.cons_eq_cons.mp hg').1
      simpa using (List.cons_eq_cons.mp h1).2
    have hgs : gs = [] := by
      have h2 := (List.cons_eq_cons.mp hg').2
      exact h2.symm
    rw [hrange, ht, hgs]
    simp
  · have hrange : l.length - k = (l.length - (k + 1)) + 1 := by omega
    have hk1lt : k - 1 < l.length := by omega
    have hklt : k < l.length := hlt
    have hdrop1 : l.drop (k - 1) = l[k - 1] :: l.drop k := by
      have := List.drop_eq_getElem_cons hk1lt
      rwa [show k - 1 + 1 = k by omega] at this
    have hdropk : l.drop k = l[k] :: l.drop (k + 1) := List.drop_eq_getElem_cons hklt
    have hget1 : l.getD (k - 1) ⊤ = l[k - 1] := by
      simp [List.getD_eq_getElem?_getD, List.getElem?_eq_getElem hk1lt]
    have hgetk : l.getD k ⊤ = l[k] := by
      simp [List.getD_eq_getElem?_getD, List.getElem?_eq_getElem hklt]
    obtain ⟨t', gs', hg'⟩ := gapSplit_head l[k] (l.drop (k + 1))
    have hgdk : gapSplit (l.drop k) = (l[k] :: t') :: gs' := by rw [hdropk]; exact hg'
    have hsplit : gapSplit (l.drop (k - 1)) =
        if l[k - 1] + 1 < l[k] then [l[k - 1]] :: (l[k] :: t') :: gs'
        else (l[k - 1] :: l[k] :: t') :: gs' := by
      rw [hdrop1, hdropk]
      simp only [gapSplit]
      rw [hdropk] at hgdk
      rw [hgdk]
    rw [hrange, List.range'_succ]
    rw [List.foldl_cons]
    by_cases hxy : l[k - 1] + 1 < l[k]
    · have hstep : rangesStep l (s, R) k =
          (k, R ++ [(l.drop s).take (k - s)]) := by
        simp only [rangesStep]
        rw [hget1, hgetk, if_pos hxy]
      rw [hstep]
      rw [hsplit, if_pos hxy, hget1] at hg
      have ht : t = [] ∧ gs = (l[k] :: t') :: gs' := by
        have h1 := List.head_eq_of_cons_eq hg
        have h2 := List.tail_eq_of_cons_eq hg
        exact ⟨(List.tail_eq_of_cons_eq h1).symm, h2.symm⟩
      have ih := rangesLoop_go l (k + 1) k (R ++ [(l.drop s).take (k - s)]) t' gs'
        (by omega) (by omega) (by omega)
        (by rw [show k + 1 - 1 = k by omega]; rw [hgetk]; exact hgdk)
      rw [ih]
      have htake1 : (l.drop k).take (k + 1 - k) = [l[k]] := by
        rw [show k + 1 - k = 1 by omega, hdropk]
        rfl
      rw [htake1, ht.1, ht.2]
      have hrhs : (((l.drop s).take (k - s) ++ ([] : List (WithTop Int))) ::
            (l[k] :: t') :: gs').dropLast =
          (l.drop s).take (k - s) ::
            (((l[k] :: t') :: gs' : List (List (WithTop Int))).dropLast) := by
        rw [List.dropLast_cons_of_ne_nil
          (show ((l[k] :: t') :: gs' : List (List (WithTop Int))) ≠ [] by simp)]
        simp
      rw [hrhs]
      simp
    · have hstep : rangesStep l (s, R) k = (s, R) := by
        simp only [rangesStep]
        rw [hget1, hgetk, if_neg hxy]
      rw [hstep]
      rw [hsplit, if_neg hxy, hget1] at hg
      have ht : t = l[k] :: t' ∧ gs = gs' := by
        have h1 := List.head_eq_of_cons_eq hg
        have h2 := List.tail_eq_of_cons_eq hg
        exact ⟨(List.tail_eq_of_cons_eq h1).symm, h2.symm⟩
      have ih := rangesLoop_go l (k + 1) s R t' gs'
        (by omega) (by omega) (by omega)
        (by rw [show k + 1 - 1 = k by omega]; rw [hgetk]; exact hgdk)
      rw [ih]
      have htake : (l.drop s).take (k + 1 - s) = (l.drop s).take (k - s) ++ [l[k]] := by
      
        rw [show k + 1 - s = (k - s) + 1 by omega]
        rw [List.take_succ]
        congr 1
        have hlt2 : k - s < (l.drop s).length := by simp; omega
        rw [List.getElem?_eq_getElem hlt2]
        simp [List.getElem_drop]
        congr 1
        omega
      rw [htake, ht.1, ht.2]
      simp
termination_by l.length - k
decreasing_by all_goals omega

/-- The flushed groups of the `extractRanges` reduce are exactly the
gap-splitting of the array without its last group. -/
theorem rangesLoop_eq_dropLast (l : List (WithTop Int)) (hl : l ≠ []) :
    rangesLoop l = (gapSplit l).dropLast := by
  match l, hl with
  | x :: rest, _ =>
    obtain ⟨t, gs, hg⟩ := gapSplit_head x rest
    have hlen : 1 ≤ (x :: rest).length := by simp
    have hdrop : ((List.range (x :: rest).length).drop 1) =
        List.range' 1 ((x :: rest).length - 1) := by
      rw [List.range_eq_range']
      cases h : (x :: rest).length with
      | zero => simp at h
      | succ m => rw [List.range'_succ]; simp
    unfold rangesLoop
    rw [hdrop]
    have hgo := rangesLoop_go (x :: rest) 1 0 [] t gs (by omega) (by simp) (by omega)
      (by simpa using hg)
    rw [hgo]
    simp only [List.drop_zero, List.nil_append]
    have htake1 : (x :: rest).take 1 = [x] := rfl
    rw [show (1 : Nat) - 0 = 1 by omega, htake1, hg]
    rfl

/-- Gap-splitting on the integer side (no sentinel): maximal runs in which no
two adjacent elements leave a gap. -/
def runsInt : List Int → List (List Int)
  | [] => [[]]
  | [x] => [[x]]
  | x :: y :: rest =>
    match runsInt (y :: rest) with
    | [] => []
    | g :: gs => if x + 1 < y then [x] :: g :: gs else (x :: g) :: gs

/-- The first run starts with the first element. -/
theorem runsInt_head : ∀ (x : Int) (rest : List Int),
    ∃ t gs, runsInt (x :: rest) = (x :: t) :: gs
  | _, [] => ⟨[], [], rfl⟩
  | x, y :: rest => by
    obtain ⟨t, gs, h⟩ := runsInt_head y rest
    by_cases hxy : x + 1 < y
    · exact ⟨[], (y :: t) :: gs, by simp [runsInt, h, hxy]⟩
    · exact ⟨y :: t, gs, by simp [runsInt, h, hxy]⟩

/-- Concatenating the runs gives back the list. -/
theorem runsInt_flatten : ∀ (x : Int) (rest : List Int),
    (runsInt (x :: rest)).flatten = x :: rest
  | _, [] => rfl
  | x, y :: rest => by
    obtain ⟨t, gs, h⟩ := runsInt_head y rest
    have ih := runsInt_flatten y rest
    rw [h] at ih
    by_cases hxy : x + 1 < y
    · simp only [runsInt, h, if_pos hxy]
      simpa using ih
    · simp only [runsInt, h, if_neg hxy]
      simpa using ih

/-- Every run is nonempty. -/
theorem runsInt_ne_nil : ∀ (x : Int) (rest : List Int) (g : List Int),
    g ∈ runsInt (x :: rest) → g ≠ []
  | _, [], g => by
    intro hg
    simp only [runsInt, List.mem_singleton] at hg
    subst hg
    simp
  | x, y :: rest, g => by
    intro hg
    obtain ⟨t, gs, h⟩ := runsInt_head y rest
    by_cases hxy : x + 1 < y
    · simp only [runsInt, h, if_pos hxy, List.mem_cons] at hg
      rcases hg with h1 | h1 | h1
      · subst h1; simp
      · subst h1; simp
      · exact runsInt_ne_nil y rest g (by rw [h]; exact List.mem_cons_of_mem _ h1)
    · simp only [runsInt, h, if_neg hxy, List.mem_cons] at hg
      rcases hg with h1 | h1
      · subst h1; simp
      · exact runsInt_ne_nil y rest g (by rw [h]; exact List.mem_cons_of_mem _ h1)

/-- In a strictly ascending list every run is a sequence of consecutive
integers (two adjacent elements in a run satisfy both `¬(a + 1 < b)` and
`a < b`, hence `b = a + 1`). -/
theorem runsInt_consec : ∀ (x : Int) (rest : List Int),
    List.Chain' (fun a b => a < b) (x :: rest) →
    ∀ g ∈ runsInt (x :: rest), List.Chain' (fun a b => b = a + 1) g
  | _, [], hc, g => by
    intro hg
    simp only [runsInt, List.mem_singleton] at hg
    subst hg
    simp
  | x, y :: rest, hc, g => by
    intro hg
    obtain ⟨t, gs, h⟩ := runsInt_head y rest
    have hxylt : x < y := (List.chain'_cons.mp hc).1
    have hctail : List.Chain' (fun a b => a < b) (y :: rest) := (List.chain'_cons.mp hc).2
    have ih := runsInt_consec y rest hctail
    by_cases hxy : x + 1 < y
    · simp only [runsInt, h, if_pos hxy, List.mem_cons] at hg
      rcases hg with h1 | h1 | h1
      · subst h1; simp
      · subst h1; exact ih (y :: t) (by rw [h]; exact List.mem_cons_self _ _)
      · exact ih g (by rw [h]; exact List.mem_cons_of_mem _ h1)
    · have hy : y = x + 1 := by omega
      simp only [runsInt, h, if_neg hxy, List.mem_cons] at hg
      rcases hg with h1 | h1
      · subst h1
        have hyt : List.Chain' (fun a b => b = a + 1) (y :: t) :=
          ih (y :: t) (by rw [h]; exact List.mem_cons_self _ _)
        exact List.chain'_cons.mpr ⟨hy, hyt⟩
      · exact ih g (by rw [h]; exact List.mem_cons_of_mem _ h1)

/-- The gap-splitting of the pushed array: the runs of the integer input
(under the coercion) followed by the singleton sentinel group, since the
last integer plus one is always below `⊤`. -/
theorem gapSplit_pushed : ∀ (x : Int) (rest : List Int),
    gapSplit (extractRangesPushed (x :: rest)) =
      (runsInt (x :: rest)).map (List.map toJs) ++ [[⊤]]
  | x, [] => by
    have hlt : toJs x + 1 < (⊤ : WithTop Int) := by
      simp only [toJs]
      rw [show ((x : WithTop Int) + 1) = ((x + 1 : Int) : WithTop Int) by push_cast; ring]
      exact WithTop.coe_lt_top (x + 1)
    simp [extractRangesPushed, gapSplit, runsInt, hlt]
  | x, y :: rest => by
    have ih := gapSplit_pushed y rest
    obtain ⟨t, gs, h⟩ := runsInt_head y rest
    have hpushed : extractRangesPushed (x :: y :: rest) =
        toJs x :: extractRangesPushed (y :: rest) := rfl
    have hpushed2 : extractRangesPushed (y :: rest) =
        toJs y :: (rest.map toJs ++ [⊤]) := rfl
    have hcond : (toJs x + 1 < toJs y) ↔ (x + 1 < y) := by
      simp only [toJs]
      rw [show ((x : WithTop Int) + 1) = ((x + 1 : Int) : WithTop Int) by push_cast; ring]
      exact WithTop.coe_lt_coe
    rw [h] at ih
    rw [hpushed, hpushed2]
    rw [hpushed2] at ih
    by_cases hxy : x + 1 < y
    · simp only [gapSplit]
      rw [ih]
      simp only [List.map_cons, List.cons_append]
      rw [if_pos (hcond.mpr hxy)]
      simp only [runsInt, h, if_pos hxy]
      simp
    · simp only [gapSplit]
      rw [ih]
      simp only [List.map_cons, List.cons_append]
      rw [if_neg (fun hlt => hxy (hcond.mp hlt))]
      simp only [runsInt, h, if_neg hxy]
      simp

/-- Character code of a digit character. -/
theorem digitChar_toNat (d : Nat) (h : d < 10) : (digitChar d).toNat = 48 + d := by
  interval_cases d <;> rfl

/-- Digit characters have codes between 48 and 57. -/
theorem natDigitsAux_codes : ∀ (fuel n : Nat), n < fuel →
    ∀ c ∈ natDigitsAux fuel n, 48 ≤ c.toNat ∧ c.toNat ≤ 57
  | 0, n, h => by omega
  | fuel + 1, n, h => by
    intro c hc
    by_cases h10 : n < 10
    · simp only [natDigitsAux, if_pos h10, List.mem_singleton] at hc
      subst hc
      rw [digitChar_toNat n h10]
      omega
    · simp only [natDigitsAux, if_neg h10, List.mem_append, List.mem_singleton] at hc
      rcases hc with hc | hc
      · exact natDigitsAux_codes fuel (n / 10) (by omega) c hc
      · subst hc
        rw [digitChar_toNat (n % 10) (by omega)]
        omega

/-- The digit rendering is nonempty. -/
theorem natDigitsAux_ne_nil : ∀ (fuel n : Nat), n < fuel → natDigitsAux fuel n ≠ []
  | 0, n, h => by omega
  | fuel + 1, n, _ => by
    by_cases h10 : n < 10
    · simp [natDigitsAux, if_pos h10]
    · simp [natDigitsAux, if_neg h10]

/-- Folding the digit characters of `n` over a seed recovers `n`. -/
theorem natDigitsAux_val : ∀ (fuel n : Nat), n < fuel → ∀ acc : Int,
    (natDigitsAux fuel n).foldl (fun a c => a * 10 + ((c.toNat : Int) - 48)) acc =
      acc * 10 ^ (natDigitsAux fuel n).length + n
  | 0, n, h => by omega
  | fuel + 1, n, h => by
    intro acc
    by_cases h10 : n < 10
    · simp only [natDigitsAux, if_pos h10, List.foldl_cons, List.foldl_nil,
        List.length_singleton]
      rw [digitChar_toNat n h10]
      push_cast
      ring
    · have hdiv : n / 10 < fuel := by
        have := Nat.div_lt_self (show 0 < n by omega) (show 1 < 10 by omega)
        omega
      have ih := natDigitsAux_val fuel (n / 10) hdiv acc
      simp only [natDigitsAux, if_neg h10, List.foldl_append, List.foldl_cons,
        List.foldl_nil, List.length_append, List.length_singleton]
      rw [ih]
      rw [digitChar_toNat (n % 10) (by omega)]
      have hcast : ((48 + n % 10 : Nat) : Int) - 48 = ((n % 10 : Nat) : Int) := by
        push_cast
        ring
      rw [hcast]
      have hn : (n : Int) = 10 * ((n / 10 : Nat) : Int) + ((n % 10 : Nat) : Int) := by
        omega
      rw [pow_succ, hn]
      ring

/-- The decimal rendering of a natural number is nonempty. -/
theorem natDigits_ne_nil (n : Nat) : natDigits n ≠ [] :=
  natDigitsAux_ne_nil (n + 1) n (by omega)

/-- Every character of the decimal rendering is a digit character. -/
theorem natDigits_codes (n : Nat) : ∀ c ∈ natDigits n, 48 ≤ c.toNat ∧ c.toNat ≤ 57 :=
  natDigitsAux_codes (n + 1) n (by omega)

/-- The decimal rendering contains no dash. -/
theorem natDigits_no_dash (n : Nat) : '-' ∉ natDigits n := by
  intro h
  have := natDigits_codes n '-' h
  revert this
  decide

/-- The decimal rendering contains no comma. -/
theorem natDigits_no_comma (n : Nat) : ',' ∉ natDigits n := by
  intro h
  have := natDigits_codes n ',' h
  revert this
  decide

/-- The digit-value fold recovers the rendered natural number. -/
theorem digitsValInt_natDigits (n : Nat) : digitsValInt (natDigits n) = (n : Int) := by
  have := natDigitsAux_val (n + 1) n (by omega) 0
  unfold digitsValInt natDigits
  rw [this]
  ring

/-- An integer rendering is nonempty. -/
theorem intStr_ne_nil (i : Int) : intStr i ≠ [] := by
  unfold intStr
  by_cases h : i < 0
  · simp [h]
  · simp only [if_neg h]
    exact natDigits_ne_nil i.toNat

/-- An integer rendering contains no comma. -/
theorem intStr_no_comma (i : Int) : ',' ∉ intStr i := by
  unfold intStr
  by_cases h : i < 0
  · simp only [if_pos h, List.mem_cons]
    rintro (hc | hc)
    · exact absurd hc (by decide)
    · exact natDigits_no_comma i.natAbs hc
  · simp only [if_neg h]
    exact natDigits_no_comma i.toNat

/-- Splitting at a dash fails on a dash-free list. -/
theorem splitDashAux_of_no_dash : ∀ (u : List Char), '-' ∉ u → splitDashAux u = none
  | [], _ => rfl
  | c :: rest, h => by
    have hc : ¬(c = '-') := fun hc => h (by simp [hc])
    have hr : '-' ∉ rest := fun hr => h (List.mem_cons_of_mem c hr)
    simp [splitDashAux, hc, splitDashAux_of_no_dash rest hr]

/-- Splitting at a dash finds the first dash after a dash-free prefix. -/
theorem splitDashAux_append : ∀ (u v : List Char), '-' ∉ u →
    splitDashAux (u ++ '-' :: v) = some (u, v)
  | [], v, _ => by simp [splitDashAux]
  | c :: rest, v, h => by
    have hc : ¬(c = '-') := fun hc => h (by simp [hc])
    have hr : '-' ∉ rest := fun hr => h (List.mem_cons_of_mem c hr)
    simp [splitDashAux, hc, splitDashAux_append rest v hr]

/-- An integer rendering never contains a dash after its first character, so
the dash splitter returns `none` on it. -/
theorem splitDash_intStr (i : Int) : splitDash (intStr i) = none := by
  unfold intStr
  by_cases h : i < 0
  · simp only [if_pos h]
    simp [splitDash, splitDashAux_of_no_dash _ (natDigits_no_dash i.natAbs)]
  · simp only [if_neg h]
    match hnd : natDigits i.toNat with
    | [] => exact absurd hnd (natDigits_ne_nil i.toNat)
    | c :: rest =>
      have hr : '-' ∉ rest := fun hr =>
        natDigits_no_dash i.toNat (by rw [hnd]; exact List.mem_cons_of_mem c hr)
      simp [splitDash, splitDashAux_of_no_dash rest hr]

/-- Parsing the rendering of an integer recovers the integer. -/
theorem parseIntToken_intStr (i : Int) : parseIntToken (intStr i) = i := by
  unfold intStr
  by_cases h : i < 0
  · simp only [if_pos h]
    have : parseIntToken ('-' :: natDigits i.natAbs) = -(digitsValInt (natDigits i.natAbs)) := by
      simp [parseIntToken]
    rw [this, digitsValInt_natDigits]
    omega
  · simp only [if_neg h]
    match hnd : natDigits i.toNat with
    | [] => exact absurd hnd (natDigits_ne_nil i.toNat)
    | c :: rest =>
      have hc : ¬(c = '-') := by
        intro hc
        subst hc
        have := natDigits_codes i.toNat '-' (by rw [hnd]; exact List.mem_cons_self _ _)
        revert this
        decide
      have : parseIntToken (c :: rest) = digitsValInt (c :: rest) := by
        simp [parseIntToken, hc]
      rw [this, ← hnd, digitsValInt_natDigits]
      omega

/-- Parsing a plain rendered integer token yields that integer alone. -/
theorem parseToken_intStr (i : Int) : parseToken (intStr i) = [i] := by
  unfold parseToken
  rw [splitDash_intStr, parseIntToken_intStr]

/-- Splitting a rendered range token recovers the two renderings. -/
theorem splitDash_range (a b : Int) :
    splitDash (intStr a ++ '-' :: intStr b) = some (intStr a, intStr b) := by
  unfold intStr
  by_cases h : a < 0
  · simp only [if_pos h]
    have : ('-' :: natDigits a.natAbs) ++ '-' :: (if b < 0 then '-' :: natDigits b.natAbs
        else natDigits b.toNat) = '-' :: (natDigits a.natAbs ++ '-' :: (if b < 0 then
        '-' :: natDigits b.natAbs else natDigits b.toNat)) := rfl
    rw [this]
    simp [splitDash, splitDashAux_append _ _ (natDigits_no_dash a.natAbs)]
  · simp only [if_neg h]
    match hnd : natDigits a.toNat with
    | [] => exact absurd hnd (natDigits_ne_nil a.toNat)
    | c :: rest =>
      have hr : '-' ∉ rest := fun hr =>
        natDigits_no_dash a.toNat (by rw [hnd]; exact List.mem_cons_of_mem c hr)
      simp [splitDash, splitDashAux_append _ _ hr]

/-- Parsing a rendered range token expands it to the inclusive range. -/
theorem parseToken_range (a b : Int) :
    parseToken (intStr a ++ '-' :: intStr b) = intsFromTo a b := by
  unfold parseToken
  rw [splitDash_range]
  show intsFromTo (parseIntToken (intStr a)) (parseIntToken (intStr b)) = intsFromTo a b
  rw [parseIntToken_intStr, parseIntToken_intStr]

/-- Peeling the first element off an inclusive integer range. -/
theorem intsFromTo_cons (a b : Int) (h : a ≤ b) :
    intsFromTo a b = a :: intsFromTo (a + 1) b := by
  unfold intsFromTo
  have hn : (b - a + 1).toNat = (b - (a + 1) + 1).toNat + 1 := by omega
  rw [hn, List.range_succ_eq_map]
  rw [List.map_cons, List.map_map]
  congr 1
  · norm_num
  · apply List.map_congr_left
    intro k _
    simp only [Function.comp_apply]
    push_cast
    ring

/-- A nonempty chain of successive integers is the inclusive range from its
first to its last element. -/
theorem consec_eq_intsFromTo : ∀ (x : Int) (rest : List Int),
    List.Chain' (fun a b => b = a + 1) (x :: rest) →
    x :: rest = intsFromTo x ((x :: rest).getLastD 0)
  | x, [], _ => by
    rw [show (([x] : List Int)).getLastD 0 = x from rfl]
    unfold intsFromTo
    rw [show (x - x + 1).toNat = 1 by omega]
    rw [show List.range 1 = [0] from rfl, List.map_cons, List.map_nil]
    norm_num
  | x, y :: rest, hc => by
    have hy : y = x + 1 := (List.chain'_cons.mp hc).1
    have hctail : List.Chain' (fun a b => b = a + 1) (y :: rest) := (List.chain'_cons.mp hc).2
    have ih := consec_eq_intsFromTo y rest hctail
    have hle : ∀ (z : Int) (l : List Int), List.Chain' (fun a b => b = a + 1) (z :: l) →
        z ≤ (z :: l).getLastD 0 := by
      intro z l
      induction l generalizing z with
      | nil => intro _; simp
      | cons w l ihl =>
        intro hcz
        have hw : w = z + 1 := (List.chain'_cons.mp hcz).1
        have := ihl w (List.chain'_cons.mp hcz).2
        calc z ≤ w := by omega
          _ ≤ (w :: l).getLastD 0 := this
          _ = (z :: w :: l).getLastD 0 := by simp [List.getLastD_cons]
    have hyle : y ≤ (y :: rest).getLastD 0 := hle y rest hctail
    have hlast : (x :: y :: rest).getLastD 0 = (y :: rest).getLastD 0 := by
      simp [List.getLastD_cons]
    rw [hlast]
    rw [intsFromTo_cons x _ (by omega)]
    rw [← hy, ← ih]

/-- A comma-join of a cons with nonempty tail splits as head, comma, rest. -/
theorem joinComma_cons (t : List Char) (u : List Char) (ts : List (List Char)) :
    joinComma (t :: u :: ts) = t ++ ',' :: joinComma (u :: ts) := by
  simp [joinComma, List.intercalate, List.intersperse]

/-- A comma-join of a singleton is its element. -/
theorem joinComma_single (t : List Char) : joinComma [t] = t := by
  simp [joinComma, List.intercalate]

/-- A comma-join of an append of two nonempty token lists. -/
theorem joinComma_append : ∀ (u v : List (List Char)), u ≠ [] → v ≠ [] →
    joinComma (u ++ v) = joinComma u ++ ',' :: joinComma v
  | [], _, hu, _ => absurd rfl hu
  | [t], v, _, hv => by
    match v with
    | [] => exact absurd rfl hv
    | w :: vs => rw [joinComma_single, List.singleton_append, joinComma_cons]
  | t :: t2 :: us, v, _, hv => by
    have ih := joinComma_append (t2 :: us) v (by simp) hv
    have h1 : joinComma ((t :: t2 :: us) ++ v) = t ++ ',' :: joinComma ((t2 :: us) ++ v) := by
      rw [show ((t :: t2 :: us) ++ v : List (List Char)) = t :: t2 :: (us ++ v) from rfl]
      rw [joinComma_cons]
      rfl
    rw [h1, ih, joinComma_cons]
    simp

/-- A comma-join of mapped comma-joins flattens. -/
theorem joinComma_map_join : ∀ (xss : List (List (List Char))), (∀ xs ∈ xss, xs ≠ []) →
    joinComma (xss.map joinComma) = joinComma xss.flatten
  | [], _ => rfl
  | [xs], _ => by simp [joinComma_single]
  | xs :: ys :: xss, h => by
    have hxs : xs ≠ [] := h xs (by simp)
    have ih := joinComma_map_join (ys :: xss) (fun a ha => h a (List.mem_cons_of_mem _ ha))
    have hflat : (ys :: xss).flatten ≠ [] := by
      have hys : ys ≠ [] := h ys (by simp)
      match ys, hys with
      | t :: ts, _ => simp
    have h1 : joinComma ((xs :: ys :: xss).map joinComma) =
        joinComma xs ++ ',' :: joinComma ((ys :: xss).map joinComma) := by
      rw [List.map_cons, List.map_cons, joinComma_cons]
    rw [h1, ih]
    rw [show ((xs :: ys :: xss).flatten : List (List Char)) = xs ++ (ys :: xss).flatten from rfl]
    rw [joinComma_append xs ((ys :: xss).flatten) hxs hflat]

/-- A nonempty comma-join headed by a nonempty token is nonempty. -/
theorem joinComma_ne_nil (t : List Char) (ts : List (List Char)) (ht : t ≠ []) :
    joinComma (t :: ts) ≠ [] := by
  match ts with
  | [] => rw [joinComma_single]; exact ht
  | u :: ts =>
    rw [joinComma_cons]
    intro hcontra
    rcases List.append_eq_nil.mp hcontra with ⟨h1, -⟩
    exact ht h1

/-- Splitting a separator-free list is the identity. -/
theorem splitOnChar_of_not_mem : ∀ (c : Char) (u : List Char), c ∉ u →
    splitOnChar c u = [u]
  | _, [], _ => rfl
  | c, x :: rest, h => by
    have hx : ¬(x = c) := fun hx => h (by simp [hx])
    have hr : c ∉ rest := fun hr => h (List.mem_cons_of_mem x hr)
    rw [splitOnChar, splitOnChar_of_not_mem c rest hr]
    simp [hx]

/-- Splitting after a separator-free prefix peels that prefix. -/
theorem splitOnChar_append : ∀ (c : Char) (u v : List Char), c ∉ u →
    splitOnChar c (u ++ c :: v) = u :: splitOnChar c v
  | c, [], v, _ => by
    rw [List.nil_append, splitOnChar]
    match h : splitOnChar c v with
    | [] => exact absurd h (by
        match v with
        | [] => simp [splitOnChar]
        | x :: rest =>
          rw [splitOnChar]
          match splitOnChar c rest with
          | [] => simp
          | g :: gs => by_cases hx : x = c <;> simp [hx])
    | g :: gs => simp
  | c, x :: rest, v, h => by
    have hx : ¬(x = c) := fun hx => h (by simp [hx])
    have hr : c ∉ rest := fun hr => h (List.mem_cons_of_mem x hr)
    rw [List.cons_append, splitOnChar, splitOnChar_append c rest v hr]
    simp [hx]

/-- Splitting a comma-join of comma-free tokens recovers the tokens. -/
theorem splitOnChar_joinComma : ∀ (ts : List (List Char)), ts ≠ [] →
    (∀ t ∈ ts, ',' ∉ t) → splitOnChar ',' (joinComma ts) = ts
  | [], h, _ => absurd rfl h
  | [t], _, h => by
    rw [joinComma_single]
    exact splitOnChar_of_not_mem ',' t (h t (by simp))
  | t :: u :: ts, _, h => by
    rw [joinComma_cons]
    rw [splitOnChar_append ',' t (joinComma (u :: ts)) (h t (by simp))]
    rw [splitOnChar_joinComma (u :: ts) (by simp)
      (fun a ha => h a (List.mem_cons_of_mem _ ha))]

/-- The last element of a mapped nonempty list, with defaults. -/
theorem getLastD_map_toJs : ∀ (t : List Int) (d : Int),
    (t.map toJs).getLastD (toJs d) = toJs (t.getLastD d)
  | [], _ => rfl
  | x :: t, d => by
    rw [show ((x :: t).map toJs : List (WithTop Int)) = toJs x :: t.map toJs from rfl]
    rw [List.getLastD_cons, List.getLastD_cons]
    exact getLastD_map_toJs t x

/-- The `toString` helper restricted to integer groups. -/
def groupToStringInt (g : List Int) : List Char :=
  if g.length > 2 then intStr (g.headD 0) ++ '-' :: intStr (g.getLastD 0)
  else joinComma (g.map intStr)

/-- The comma-separated tokens contributed by one group: one dash token for a
long group, one plain token per element otherwise. -/
def tokensOf (g : List Int) : List (List Char) :=
  if g.length > 2 then [intStr (g.headD 0) ++ '-' :: intStr (g.getLastD 0)]
  else g.map intStr

/-- On a group of integers, `groupToString` factors through `toJs`. -/
theorem groupToString_map_toJs (x : Int) (t : List Int) :
    groupToString ((x :: t).map toJs) = groupToStringInt (x :: t) := by
  unfold groupToString groupToStringInt
  have hlen : ((x :: t).map toJs).length = (x :: t).length := by simp
  rw [hlen]
  by_cases h : (x :: t).length > 2
  · rw [if_pos h, if_pos h]
    have hhead : (((x :: t).map toJs).headD ⊤ : WithTop Int) = toJs x := rfl
    have hlast : (((x :: t).map toJs).getLastD ⊤ : WithTop Int) = toJs ((x :: t).getLastD 0) := by
      rw [show ((x :: t).map toJs : List (WithTop Int)) = toJs x :: t.map toJs from rfl]
      rw [List.getLastD_cons, List.getLastD_cons]
      exact getLastD_map_toJs t x
    rw [hhead, hlast]
    rfl
  · rw [if_neg h, if_neg h]
    congr 1
    rw [List.map_map]
    apply List.map_congr_left
    intro i _
    rfl

/-- Rendering a group is joining its tokens. -/
theorem groupToStringInt_eq_tokens (g : List Int) :
    groupToStringInt g = joinComma (tokensOf g) := by
  unfold groupToStringInt tokensOf
  by_cases h : g.length > 2
  · rw [if_pos h, if_pos h, joinComma_single]
  · rw [if_neg h, if_neg h]

/-- A nonempty group contributes at least one token. -/
theorem tokensOf_ne_nil (g : List Int) (hg : g ≠ []) : tokensOf g ≠ [] := by
  unfold tokensOf
  by_cases h : g.length > 2
  · simp [h]
  · simp only [if_neg h]
    simpa using hg

/-- Every token of a group is comma-free and nonempty. -/
theorem tokensOf_facts (g : List Int) : ∀ tk ∈ tokensOf g, ',' ∉ tk ∧ tk ≠ [] := by
  unfold tokensOf
  by_cases h : g.length > 2
  · rw [if_pos h]
    intro tk htk
    rw [List.mem_singleton] at htk
    subst htk
    constructor
    · intro hmem
      rw [List.mem_append] at hmem
      rcases hmem with hmem | hmem
      · exact intStr_no_comma _ hmem
      · rw [List.mem_cons] at hmem
        rcases hmem with hmem | hmem
        · exact absurd hmem (by decide)
        · exact intStr_no_comma _ hmem
    · intro hcontra
      rcases List.append_eq_nil.mp hcontra with ⟨h1, -⟩
      exact intStr_ne_nil _ h1
  · rw [if_neg h]
    intro tk htk
    obtain ⟨i, -, rfl⟩ := List.mem_map.mp htk
    exact ⟨intStr_no_comma i, intStr_ne_nil i⟩

/-- Parsing the rendered single tokens of a list recovers the list. -/
theorem flatMap_parse_intStr : ∀ (g : List Int), (g.map intStr).flatMap parseToken = g
  | [] => rfl
  | x :: t => by
    rw [List.map_cons, List.flatMap_cons, parseToken_intStr, flatMap_parse_intStr t]
    rfl

/-- Parsing the tokens of a nonempty consecutive group recovers the group. -/
theorem tokensOf_parse (g : List Int) (hne : g ≠ [])
    (hc : List.Chain' (fun a b => b = a + 1) g) :
    (tokensOf g).flatMap parseToken = g := by
  unfold tokensOf
  by_cases h : g.length > 2
  · rw [if_pos h]
    rw [show ([intStr (g.headD 0) ++ '-' :: intStr (g.getLastD 0)].flatMap parseToken :
        List Int) = parseToken (intStr (g.headD 0) ++ '-' :: intStr (g.getLastD 0)) by simp]
    rw [parseToken_range]
    match g, hne, hc with
    | x :: t, _, hc => exact (consec_eq_intsFromTo x t hc).symm
  · rw [if_neg h]
    exact flatMap_parse_intStr g

/-- Groupwise parsing flattens back to the whole list. -/
theorem flatMap_tokensOf_parse : ∀ (l : List (List Int)),
    (∀ g ∈ l, (tokensOf g).flatMap parseToken = g) →
    l.flatMap (fun g => (tokensOf g).flatMap parseToken) = l.flatten
  | [], _ => rfl
  | g :: l, h => by
    rw [List.flatMap_cons, h g (by simp),
      flatMap_tokensOf_parse l (fun a ha => h a (List.mem_cons_of_mem _ ha))]
    rfl

/-- The returned string of `extractRanges` on a nonempty input is the
comma-join of the rendered runs. -/
theorem extractRanges_eq_runs (x : Int) (rest : List Int) :
    extractRanges (x :: rest) = joinComma ((runsInt (x :: rest)).map groupToStringInt) := by
  unfold extractRanges
  rw [rangesLoop_eq_dropLast _ (by simp [extractRangesPushed])]
  rw [gapSplit_pushed]
  rw [List.dropLast_concat]
  rw [List.map_map]
  congr 1
  apply List.map_congr_left
  intro g hg
  have hne := runsInt_ne_nil x rest g hg
  match g, hne with
  | y :: t, _ => exact groupToString_map_toJs y t

/-- C5: for every strictly ascending sequence of distinct integers, parsing
the string returned by `extractRanges` (splitting on commas, expanding each
dash range `start-end` to all integers from `start` to `end` inclusive and
keeping single numbers) reproduces exactly the original sequence. -/
theorem extractRanges_roundtrip (nums : List Int)
    (h : List.Chain' (fun a b => a < b) nums) :
    parseRanges (extractRanges nums) = nums := by
  match nums with
  | [] => rfl
  | x :: rest =>
    have hruns_ne : ∀ g ∈ runsInt (x :: rest), g ≠ [] := runsInt_ne_nil x rest
    have hchain := runsInt_consec x rest h
    rw [extractRanges_eq_runs]
    have h1 : (runsInt (x :: rest)).map groupToStringInt =
        ((runsInt (x :: rest)).map tokensOf).map joinComma := by
      rw [List.map_map]
      apply List.map_congr_left
      intro g _
      exact groupToStringInt_eq_tokens g
    rw [h1]
    rw [joinComma_map_join _ (by
      intro xs hxs
      obtain ⟨g, hg, rfl⟩ := List.mem_map.mp hxs
      exact tokensOf_ne_nil g (hruns_ne g hg))]
    have hT : ((runsInt (x :: rest)).map tokensOf).flatten =
        (runsInt (x :: rest)).flatMap tokensOf := (List.flatMap_def _ _).symm
    rw [hT]
    have hTfacts : ∀ tk ∈ (runsInt (x :: rest)).flatMap tokensOf, ',' ∉ tk ∧ tk ≠ [] := by
      intro tk htk
      obtain ⟨g, -, htk2⟩ := List.mem_flatMap.mp htk
      exact tokensOf_facts g tk htk2
    have hTne : (runsInt (x :: rest)).flatMap tokensOf ≠ [] := by
      obtain ⟨t, gs, hg⟩ := runsInt_head x rest
      rw [hg]
      rw [List.flatMap_cons]
      intro hcontra
      rcases List.append_eq_nil.mp hcontra with ⟨h1, -⟩
      exact tokensOf_ne_nil (x :: t) (by simp) h1
    have hsne : joinComma ((runsInt (x :: rest)).flatMap tokensOf) ≠ [] := by
      match hTeq : (runsInt (x :: rest)).flatMap tokensOf, hTne with
      | tk :: ts, _ =>
        exact joinComma_ne_nil tk ts (hTfacts tk (by rw [hTeq]; simp)).2
    unfold parseRanges
    rw [if_neg (by
      intro hcontra
      exact hsne (List.isEmpty_iff.mp hcontra))]
    rw [splitOnChar_joinComma _ hTne (fun t ht => (hTfacts t ht).1)]
    rw [List.flatMap_assoc]
    rw [flatMap_tokensOf_parse _ (fun g hg => tokensOf_parse g (hruns_ne g hg) (hchain g hg))]
    exact runsInt_flatten x rest

/-- Witness for C5 at a concrete ascending sequence with runs of all kinds. -/
theorem extractRanges_roundtrip_witness :
    List.Chain' (fun (a b : Int) => a < b) [0, 1, 2, 5, 7, 8, 9] ∧
      parseRanges (extractRanges [0, 1, 2, 5, 7, 8, 9]) = [0, 1, 2, 5, 7, 8, 9] :=
  ⟨by norm_num [List.chain'_cons], extractRanges_roundtrip [0, 1, 2, 5, 7, 8, 9]
    (by norm_num [List.chain'_cons])⟩

/-! ### expandBraces (10-katas-1-tasks.js, lines 75-111)

The regex `(\x7b[^\x7b\x7d]*\x7d)` matches, at the leftmost possible start,
an opening brace followed by brace-free content and a closing brace;
`findB` mirrors this: at each opening brace it tries to scan brace-free
content up to a closing brace and otherwise moves on.  `combine` calls
`line.replace(bracket, arg)` with a plain string search value: the first
literal occurrence of the bracket text is replaced (which is exactly the
matched span, since an earlier occurrence of the bracket text would itself
be an earlier regex match), and the replacement string goes through
ECMAScript GetSubstitution with an empty capture list: `$$` inserts a
dollar, `$&` the matched text, a dollar followed by a backquote the text
before the match, `$'` the text after it, and any other dollar is literal
(`getSubstitution` below).  The `CASH` memo only caches the comma split of
a bracket and is semantically transparent.  The loop keeps rewriting while
every candidate produced an array of length other than 1, then flattens;
the generator finally yields the distinct results in first occurrence
order (`new Set`), modelled by `setDedupAux`. -/

/-- Scan brace-free content up to a closing brace: the `[^\x7b\x7d]*\x7d`
part of the pattern. -/
def scanInside : List Char → Option (List Char × List Char)
  | [] => none
  | c :: rest =>
    if c = '\x7d' then some ([], rest)
    else if c = '\x7b' then none
    else (scanInside rest).map (fun p => (c :: p.1, p.2))

/-- Leftmost regex match, returned as (prefix, group content, suffix). -/
def findB : List Char → Option (List Char × List Char × List Char)
  | [] => none
  | c :: rest =>
    if c = '\x7b' then
      match scanInside rest with
      | some p => some ([], p.1, p.2)
      | none => (findB rest).map (fun p => (c :: p.1, p.2.1, p.2.2))
    else (findB rest).map (fun p => (c :: p.1, p.2.1, p.2.2))

/-- ECMAScript GetSubstitution for a string replacement with no captures:
`$$` is a literal dollar, `$&` the matched text, a dollar followed by a
backquote the text before the match, `$'` the text after it; any other
dollar (including `$1`-`$9`, as the capture list is empty for a string
search value) stands for itself. -/
def getSubstitution (matched before after : List Char) : List Char → List Char
  | [] => []
  | c :: rest =>
    if c = '$' then
      match rest with
      | [] => ['$']
      | d :: rest2 =>
        if d = '$' then '$' :: getSubstitution matched before after rest2
        else if d = '&' then matched ++ getSubstitution matched before after rest2
        else if d = '\x60' then before ++ getSubstitution matched before after rest2
        else if d = '\x27' then after ++ getSubstitution matched before after rest2
        else '$' :: getSubstitution matched before after (d :: rest2)
    else c :: getSubstitution matched before after rest

/-- Absence of dollar signs (on such strings GetSubstitution is literal). -/
def dollarFree (s : List Char) : Bool :=
  s.all (fun c => !(c = '$' : Bool))

/-- The JS `replaceBracket`: expand the first matched group through
`line.replace(bracket, arg)` - the matched span is replaced by the
alternative processed with GetSubstitution - or keep the line as a
singleton when no group matches. -/
def replaceBracket (line : List Char) : List (List Char) :=
  match findB line with
  | none => [line]
  | some (p, inside, s) =>
    (splitOnChar ',' inside).map (fun arg =>
      p ++ getSubstitution ('\x7b' :: (inside ++ ['\x7d'])) p s arg ++ s)

/-- One state of the `while` loop of `findBracets`: map `replaceBracket`
over the candidates, recompute the flag from the mapped arrays, flatten,
and continue while every mapped array has length other than 1.  The fuel
argument makes the definition structural; any fuel above the number of
opening braces is enough (proved below). -/
def findLoop : Nat → List (List Char) → List (List Char)
  | 0, combs => combs
  | fuel + 1, combs =>
    if (combs.map replaceBracket).all (fun comb => comb.length != 1) then
      findLoop fuel (combs.map replaceBracket).flatten
    else (combs.map replaceBracket).flatten

/-- Translation of `findBracets`. -/
def findBracets (s : List Char) : List (List Char) :=
  findLoop (s.count '\x7b' + 1) [s]

/-- First-occurrence deduplication (iteration order of a JS `Set`). -/
def setDedupAux : List (List Char) → List (List Char) → List (List Char)
  | _, [] => []
  | seen, a :: rest =>
    if a ∈ seen then setDedupAux seen rest else a :: setDedupAux (a :: seen) rest

/-- The values yielded by the `expandBraces` generator, in order. -/
def expandBracesList (s : List Char) : List (List Char) :=
  setDedupAux [] (findBracets s)

/-- The comma-separated alternative count of each group of the input, left
to right (fuel-based; the suffix shrinks at every step). -/
def groupCountsAux : Nat → List Char → List Nat
  | 0, _ => []
  | fuel + 1, s =>
    match findB s with
    | none => []
    | some p => (splitOnChar ',' p.2.1).length :: groupCountsAux fuel p.2.2

/-- The alternative counts of all groups of the input. -/
def groupCounts (s : List Char) : List Nat := groupCountsAux s.length s

/-- Brace-freeness of a string. -/
def braceFree (s : List Char) : Bool :=
  s.all (fun c => !(c = '\x7b' : Bool) && !(c = '\x7d' : Bool))

/-- Balanced, non-nested brace structure: the brace characters of the
string read as a word in `(\x7b\x7d)*`. -/
def wellFormedFrom : Bool → List Char → Bool
  | inside, [] => !inside
  | inside, c :: rest =>
    if c = '\x7b' then if inside then false else wellFormedFrom true rest
    else if c = '\x7d' then if inside then wellFormedFrom false rest else false
    else wellFormedFrom inside rest

/-- The input has non-nested brace groups. -/
def wellFormed (s : List Char) : Bool := wellFormedFrom false s

/-- Balanced braces (properly nested, any depth). -/
def balancedFrom : Nat → List Char → Bool
  | d, [] => d == 0
  | d, c :: rest =>
    if c = '\x7b' then balancedFrom (d + 1) rest
    else if c = '\x7d' then
      match d with
      | 0 => false
      | e + 1 => balancedFrom e rest
    else balancedFrom d rest

/-- The input has balanced braces. -/
def balanced (s : List Char) : Bool := balancedFrom 0 s

example : expandBracesList ("~/\x7bDownloads,Pictures\x7d/*.\x7bjpg,gif\x7d".data) =
    ["~/Downloads/*.jpg".data, "~/Downloads/*.gif".data,
     "~/Pictures/*.jpg".data, "~/Pictures/*.gif".data] := by decide

example : expandBracesList ("thumbnail.\x7bpng,jp\x7be,\x7dg\x7d".data) =
    ["thumbnail.png".data, "thumbnail.jpeg".data, "thumbnail.jpg".data] := by decide

example : expandBracesList ("nothing to do".data) = ["nothing to do".data] := by decide

example : expandBracesList ("\x7ba,a\x7d".data) = ["a".data] := by decide

example : expandBracesList ("\x7ba$&x,b\x7d".data) =
    ["aa\x7ba$&x,b\x7dxx".data, "abx".data, "b".data] := by decide

example : groupCounts ("\x7ba,a\x7d".data) = [2] := by decide

example : wellFormed ("\x7ba,a\x7d".data) = true := by decide

/-- A successful inside scan decomposes the text after the opening brace. -/
theorem scanInside_decomp : ∀ (t i suf : List Char), scanInside t = some (i, suf) →
    t = i ++ '\x7d' :: suf ∧ braceFree i = true
  | [], i, suf => by intro h; exact absurd h (by simp [scanInside])
  | c :: rest, i, suf => by
    intro h
    by_cases hc : c = '\x7d'
    · rw [scanInside, if_pos hc] at h
      simp only [Option.some.injEq, Prod.mk.injEq] at h
      obtain ⟨h1, h2⟩ := h
      subst hc
      constructor
      · rw [← h1, ← h2]
        rfl
      · rw [← h1]
        rfl
    · by_cases hb : c = '\x7b'
      · rw [scanInside, if_neg hc, if_pos hb] at h
        exact absurd h (by simp)
      · rw [scanInside, if_neg hc, if_neg hb] at h
        match hs : scanInside rest with
        | none => rw [hs] at h; exact absurd h (by simp)
        | some (i2, suf2) =>
          rw [hs] at h
          simp at h
          obtain ⟨h1, h2⟩ := h
          obtain ⟨t2, hfree⟩ := scanInside_decomp rest i2 suf2 hs
          subst h1 h2
          constructor
          · rw [List.cons_append, ← t2]
          · simp only [braceFree, List.all_cons, Bool.and_eq_true] at hfree ⊢
            exact ⟨⟨by simpa using hb, by simpa using hc⟩, hfree⟩

/-- A match of the bracket pattern decomposes the line. -/
theorem findB_decomp : ∀ (s p i suf : List Char), findB s = some (p, i, suf) →
    s = p ++ '\x7b' :: (i ++ '\x7d' :: suf) ∧ braceFree i = true
  | [], p, i, suf => by intro h; exact absurd h (by simp [findB])
  | c :: rest, p, i, suf => by
    intro h
    by_cases hb : c = '\x7b'
    · rw [findB, if_pos hb] at h
      match hs : scanInside rest with
      | some (i2, suf2) =>
        rw [hs] at h
        simp at h
        obtain ⟨hp, hi, hsuf⟩ := h
        obtain ⟨hdec, hfree⟩ := scanInside_decomp rest i2 suf2 hs
        subst hb hp hi hsuf
        constructor
        · rw [hdec]
          rfl
        · exact hfree
      | none =>
        rw [hs] at h
        match hf : findB rest with
        | none => rw [hf] at h; exact absurd h (by simp)
        | some (p2, i2, suf2) =>
          rw [hf] at h
          simp at h
          obtain ⟨hp, hi, hsuf⟩ := h
          obtain ⟨hdec, hfree⟩ := findB_decomp rest p2 i2 suf2 hf
          subst hp hi hsuf
          constructor
          · rw [hdec]
            rfl
          · exact hfree
    · rw [findB, if_neg hb] at h
      match hf : findB rest with
      | none => rw [hf] at h; exact absurd h (by simp)
      | some (p2, i2, suf2) =>
        rw [hf] at h
        simp at h
        obtain ⟨hp, hi, hsuf⟩ := h
        obtain ⟨hdec, hfree⟩ := findB_decomp rest p2 i2 suf2 hf
        subst hp hi hsuf
        constructor
        · rw [hdec]
          rfl
        · exact hfree

/-- Splitting never yields an empty list of parts. -/
theorem splitOnChar_ne_nil (c : Char) (s : List Char) : splitOnChar c s ≠ [] := by
  match s with
  | [] => simp [splitOnChar]
  | x :: rest =>
    rw [splitOnChar]
    match splitOnChar c rest with
    | [] => simp
    | g :: gs => by_cases hx : x = c <;> simp [hx]

/-- Unfolding equation of `splitOnChar` on a cons, given the tail split. -/
theorem splitOnChar_cons_eq (sep x : Char) (rest : List Char) (g : List Char)
    (gs : List (List Char)) (hsp : splitOnChar sep rest = g :: gs) :
    splitOnChar sep (x :: rest) = if x = sep then [] :: g :: gs else (x :: g) :: gs := by
  rw [splitOnChar, hsp]

/-- Characters of a split part come from the split string. -/
theorem splitOnChar_subset : ∀ (sep : Char) (s part : List Char),
    part ∈ splitOnChar sep s → ∀ c ∈ part, c ∈ s
  | _, [], part => by
    intro hp c hc
    simp only [splitOnChar, List.mem_singleton] at hp
    subst hp
    simp at hc
  | sep, x :: rest, part => by
    intro hp c hc
    match hsp : splitOnChar sep rest with
    | [] => exact absurd hsp (splitOnChar_ne_nil sep rest)
    | g :: gs =>
      rw [splitOnChar_cons_eq sep x rest g gs hsp] at hp
      by_cases hx : x = sep
      · rw [if_pos hx] at hp
        rcases List.mem_cons.mp hp with h1 | h1
        · subst h1; simp at hc
        · exact List.mem_cons_of_mem x
            (splitOnChar_subset sep rest part (by rw [hsp]; exact h1) c hc)
      · rw [if_neg hx] at hp
        rcases List.mem_cons.mp hp with h1 | h1
        · subst h1
          rcases List.mem_cons.mp hc with h2 | h2
          · subst h2; simp
          · exact List.mem_cons_of_mem x
              (splitOnChar_subset sep rest g (by rw [hsp]; simp) c h2)
        · exact List.mem_cons_of_mem x
            (splitOnChar_subset sep rest part (by rw [hsp]; exact List.mem_cons_of_mem g h1) c hc)

/-- The loop fixes the empty candidate list. -/
theorem findLoop_nil : ∀ fuel, findLoop fuel [] = []
  | 0 => rfl
  | fuel + 1 => by
    rw [findLoop]
    simp only [List.map_nil, List.all_nil, List.flatten_nil, if_true]
    exact findLoop_nil fuel

/-- The suffix after a matched group is strictly shorter. -/
theorem findB_suffix_lt (s p i suf : List Char) (h : findB s = some (p, i, suf)) :
    suf.length < s.length := by
  obtain ⟨hdec, -⟩ := findB_decomp s p i suf h
  rw [hdec]
  simp only [List.length_append, List.length_cons]
  omega

/-- The group-count scan is fuel-irrelevant above the string length. -/
theorem groupCountsAux_fuel : ∀ (fuel fuel2 : Nat) (s : List Char),
    s.length ≤ fuel → s.length ≤ fuel2 → groupCountsAux fuel s = groupCountsAux fuel2 s
  | 0, fuel2, s, h1, _ => by
    have hs : s = [] := List.eq_nil_of_length_eq_zero (by omega)
    subst hs
    match fuel2 with
    | 0 => rfl
    | f + 1 => rw [groupCountsAux]; rfl
  | fuel + 1, 0, s, _, h2 => by
    have hs : s = [] := List.eq_nil_of_length_eq_zero (by omega)
    subst hs
    rw [groupCountsAux]
    rfl
  | fuel + 1, fuel2 + 1, s, h1, h2 => by
    rw [groupCountsAux, groupCountsAux]
    match hfB : findB s with
    | none => rfl
    | some (p, i, suf) =>
      have hlt := findB_suffix_lt s p i suf hfB
      dsimp only
      rw [groupCountsAux_fuel fuel fuel2 suf (by omega) (by omega)]

/-- Unfolding equation of `groupCounts`. -/
theorem groupCounts_eq_match (s : List Char) :
    groupCounts s = match findB s with
      | none => []
      | some p => (splitOnChar ',' p.2.1).length :: groupCounts p.2.2 := by
  match s with
  | [] => rfl
  | c :: rest =>
    show groupCountsAux (rest.length + 1) (c :: rest) = _
    rw [groupCountsAux]
    match hfB : findB (c :: rest) with
    | none => rfl
    | some (p, i, suf) =>
      have hlt := findB_suffix_lt (c :: rest) p i suf hfB
      simp only [List.length_cons] at hlt
      dsimp only
      rw [groupCountsAux_fuel rest.length suf.length suf (by omega) (by omega)]
      rfl

/-- A brace-free prefix shifts the leftmost match. -/
theorem findB_braceFree_front : ∀ (u v : List Char), braceFree u = true →
    findB (u ++ v) = (findB v).map (fun q => (u ++ q.1, q.2.1, q.2.2))
  | [], v, _ => by
    cases hf : findB v with
    | none => simp [hf]
    | some q => simp [hf]
  | c :: u2, v, hfree => by
    simp only [braceFree, List.all_cons, Bool.and_eq_true] at hfree
    obtain ⟨⟨hb, hd⟩, hrest⟩ := hfree
    have hb2 : ¬(c = '\x7b') := by simpa using hb
    rw [List.cons_append, findB, if_neg hb2]
    rw [findB_braceFree_front u2 v hrest]
    cases hf : findB v with
    | none => simp
    | some q => simp

/-- A brace-free prefix does not change the group counts. -/
theorem groupCounts_braceFree_front (u v : List Char) (hfree : braceFree u = true) :
    groupCounts (u ++ v) = groupCounts v := by
  rw [groupCounts_eq_match (u ++ v), groupCounts_eq_match v,
    findB_braceFree_front u v hfree]
  cases hf : findB v with
  | none => rfl
  | some q => rfl

/-- A brace-free prefix does not change well-formedness. -/
theorem wf_braceFree_front : ∀ (u v : List Char), braceFree u = true →
    wellFormedFrom false (u ++ v) = wellFormedFrom false v
  | [], _, _ => rfl
  | c :: u2, v, hfree => by
    simp only [braceFree, List.all_cons, Bool.and_eq_true] at hfree
    obtain ⟨⟨hb, hd⟩, hrest⟩ := hfree
    have hb2 : ¬(c = '\x7b') := by simpa using hb
    have hd2 : ¬(c = '\x7d') := by simpa using hd
    rw [List.cons_append, wellFormedFrom, if_neg hb2, if_neg hd2]
    exact wf_braceFree_front u2 v hrest

/-- Inside a well-formed group the scan always reaches the closing brace. -/
theorem wf_scanInside : ∀ (rest : List Char), wellFormedFrom true rest = true →
    ∃ i suf, scanInside rest = some (i, suf) ∧ wellFormedFrom false suf = true
  | [], h => by simp [wellFormedFrom] at h
  | c :: r, h => by
    by_cases hb : c = '\x7b'
    · rw [wellFormedFrom, if_pos hb] at h
      simp at h
    · by_cases hd : c = '\x7d'
      · rw [wellFormedFrom, if_neg hb, if_pos hd] at h
        exact ⟨[], r, by rw [scanInside, if_pos hd], by simpa using h⟩
      · rw [wellFormedFrom, if_neg hb, if_neg hd] at h
        obtain ⟨i, suf, hscan, hwf⟩ := wf_scanInside r h
        exact ⟨c :: i, suf, by rw [scanInside, if_neg hd, if_neg hb, hscan]; rfl, hwf⟩

/-- On a well-formed line, the matched prefix is brace-free and the suffix
is well-formed again. -/
theorem wf_findB : ∀ (s p i suf : List Char), wellFormedFrom false s = true →
    findB s = some (p, i, suf) → braceFree p = true ∧ wellFormedFrom false suf = true
  | [], p, i, suf, _, h => absurd h (by simp [findB])
  | c :: rest, p, i, suf, hwf, h => by
    by_cases hb : c = '\x7b'
    · rw [wellFormedFrom, if_pos hb, if_neg (by simp : ¬(false = true))] at hwf
      obtain ⟨i2, suf2, hscan, hwf2⟩ := wf_scanInside rest hwf
      rw [findB, if_pos hb, hscan] at h
      simp at h
      obtain ⟨hp, hi, hsuf⟩ := h
      subst hp hi hsuf
      exact ⟨rfl, hwf2⟩
    · by_cases hd : c = '\x7d'
      · rw [wellFormedFrom, if_neg hb, if_pos hd] at hwf
        simp at hwf
      · rw [wellFormedFrom, if_neg hb, if_neg hd] at hwf
        rw [findB, if_neg hb] at h
        match hf : findB rest with
        | none => rw [hf] at h; exact absurd h (by simp)
        | some (p2, i2, suf2) =>
          rw [hf] at h
          simp at h
          obtain ⟨hp, hi, hsuf⟩ := h
          subst hp hi hsuf
          obtain ⟨hfree, hwf2⟩ := wf_findB rest p2 i2 suf2 hwf hf
          refine ⟨?_, hwf2⟩
          simp only [braceFree, List.all_cons, Bool.and_eq_true]
          exact ⟨⟨by simpa using hb, by simpa using hd⟩, hfree⟩

/-- Brace-freeness transfers to character subsets. -/
theorem braceFree_of_subset (u i : List Char) (hsub : ∀ c ∈ u, c ∈ i)
    (hfree : braceFree i = true) : braceFree u = true := by
  simp only [braceFree, List.all_eq_true] at hfree ⊢
  exact fun c hc => hfree c (hsub c hc)

/-- Dollar-freeness transfers to character subsets. -/
theorem dollarFree_of_subset (u i : List Char) (hsub : ∀ c ∈ u, c ∈ i)
    (hfree : dollarFree i = true) : dollarFree u = true := by
  simp only [dollarFree, List.all_eq_true] at hfree ⊢
  exact fun c hc => hfree c (hsub c hc)

/-- Brace-freeness of a concatenation. -/
theorem braceFree_append (u v : List Char) (hu : braceFree u = true)
    (hv : braceFree v = true) : braceFree (u ++ v) = true := by
  simp only [braceFree, List.all_append, Bool.and_eq_true]
  exact ⟨hu, hv⟩

/-- On a replacement string without dollar signs, GetSubstitution is the
identity: the alternative is spliced in literally. -/
theorem getSubstitution_no_dollar (m b a : List Char) : ∀ (arg : List Char),
    (∀ ch ∈ arg, ¬(ch = '$')) → getSubstitution m b a arg = arg
  | [], _ => rfl
  | c :: rest, h => by
    rw [getSubstitution.eq_def]
    dsimp only
    rw [if_neg (h c (by simp))]
    rw [getSubstitution_no_dollar m b a rest
      (fun ch hch => h ch (List.mem_cons_of_mem c hch))]

/-- A line with a nonempty group list has a match. -/
theorem findB_some_of_counts_cons (c : List Char) (k : Nat) (g2 : List Nat)
    (h : groupCounts c = k :: g2) : ∃ p i suf, findB c = some (p, i, suf) := by
  rw [groupCounts_eq_match] at h
  match hf : findB c with
  | none => rw [hf] at h; exact absurd h (by simp)
  | some (p, i, suf) => exact ⟨p, i, suf, rfl⟩

/-- A line with an empty group list has no match. -/
theorem findB_none_of_counts_nil (c : List Char) (h : groupCounts c = []) :
    findB c = none := by
  rw [groupCounts_eq_match] at h
  match hf : findB c with
  | none => rfl
  | some (p, i, suf) => rw [hf] at h; exact absurd h (by simp)

/-- On a well-formed, dollar-free line with a match: the group counts are the
alternative count followed by the suffix counts; the rewrite produces exactly
that many candidates; each candidate is well-formed, dollar-free and carries
the suffix counts. -/
theorem expansion_facts (c p i suf : List Char) (hwf : wellFormed c = true)
    (hnd : dollarFree c = true) (hf : findB c = some (p, i, suf)) :
    groupCounts c = (splitOnChar ',' i).length :: groupCounts suf ∧
    (replaceBracket c).length = (splitOnChar ',' i).length ∧
    ∀ r ∈ replaceBracket c, wellFormed r = true ∧ groupCounts r = groupCounts suf ∧
      dollarFree r = true := by
  obtain ⟨hdec, hifree⟩ := findB_decomp c p i suf hf
  obtain ⟨hpfree, hsufwf⟩ := wf_findB c p i suf hwf hf
  refine ⟨?_, ?_, ?_⟩
  · rw [groupCounts_eq_match, hf]
  · rw [replaceBracket, hf]
    simp
  · intro r hr
    rw [replaceBracket, hf] at hr
    obtain ⟨arg, harg, rfl⟩ := List.mem_map.mp hr
    have hargfree : braceFree arg = true :=
      braceFree_of_subset arg i (fun ch hch => splitOnChar_subset ',' i arg harg ch hch) hifree
    have hargnd : ∀ ch ∈ arg, ¬(ch = '$') := by
      intro ch hch
      have hchc : ch ∈ c := by
        rw [hdec]
        have h3 : ch ∈ i := splitOnChar_subset ',' i arg harg ch hch
        simp [h3]
      have := List.all_eq_true.mp hnd ch hchc
      simpa using this
    rw [getSubstitution_no_dollar _ _ _ arg hargnd]
    refine ⟨?_, ?_, ?_⟩
    · show wellFormedFrom false (p ++ arg ++ suf) = true
      rw [List.append_assoc, wf_braceFree_front p _ hpfree,
        wf_braceFree_front arg suf hargfree]
      exact hsufwf
    · rw [List.append_assoc, groupCounts_braceFree_front p _ hpfree,
        groupCounts_braceFree_front arg suf hargfree]
    · apply dollarFree_of_subset (p ++ arg ++ suf) c ?_ hnd
      intro ch hch
      rw [hdec]
      rcases List.mem_append.mp hch with h1 | h1
      · rcases List.mem_append.mp h1 with h2 | h2
        · simp [h2]
        · have h3 : ch ∈ i := splitOnChar_subset ',' i arg harg ch h2
          simp [h3]
      · simp [h1]

/-- Every group's alternative count is at least one. -/
theorem groupCounts_pos (s : List Char) : ∀ k ∈ groupCounts s, 1 ≤ k := by
  rw [groupCounts_eq_match]
  match hf : findB s with
  | none => simp
  | some (p, i, suf) =>
    intro k hk
    rcases List.mem_cons.mp hk with h1 | h1
    · subst h1
      exact List.length_pos.mpr (splitOnChar_ne_nil ',' i)
    · exact groupCounts_pos suf k h1
termination_by s.length
decreasing_by exact findB_suffix_lt s p i suf hf

/-- A list of positive naturals has positive product. -/
theorem one_le_prodList : ∀ (l : List Nat), (∀ k ∈ l, 1 ≤ k) → 1 ≤ l.prod
  | [], _ => le_refl 1
  | a :: t, h => by
    rw [List.prod_cons]
    calc 1 = 1 * 1 := rfl
      _ ≤ a * t.prod := Nat.mul_le_mul (h a (by simp))
          (one_le_prodList t (fun k hk => h k (List.mem_cons_of_mem a hk)))

/-- Flattening uniformly sized rewrite results multiplies the length. -/
theorem flatten_length_eq : ∀ (combs : List (List Char)) (k : Nat),
    (∀ c ∈ combs, (replaceBracket c).length = k) →
    ((combs.map replaceBracket).flatten).length = combs.length * k
  | [], _, _ => by simp
  | c :: rest, k, h => by
    rw [List.map_cons, List.flatten_cons, List.length_append, h c (by simp),
      flatten_length_eq rest k (fun a ha => h a (List.mem_cons_of_mem c ha))]
    rw [List.length_cons]
    ring

/-- Size bound of the rewriting loop: starting from candidates that all share
the same group counts `g`, at most `count * g.prod` strings come out. -/
theorem findLoop_length : ∀ (fuel : Nat) (combs : List (List Char)) (g : List Nat),
    (∀ c ∈ combs, wellFormed c = true ∧ groupCounts c = g ∧ dollarFree c = true) →
    (findLoop fuel combs).length ≤ combs.length * g.prod
  | 0, combs, g, h => by
    rw [findLoop]
    match combs with
    | [] => simp
    | c :: rest =>
      have hg : groupCounts c = g := (h c (by simp)).2.1
      have hpos : 1 ≤ g.prod :=
        one_le_prodList g (fun k hk => groupCounts_pos c k (by rw [hg]; exact hk))
      calc (c :: rest).length = (c :: rest).length * 1 := by ring
        _ ≤ (c :: rest).length * g.prod := Nat.mul_le_mul_left _ hpos
  | fuel + 1, combs, g, h => by
    match combs with
    | [] => rw [findLoop_nil]; simp
    | c0 :: combs2 =>
      match g with
      | [] =>
        have hlen1 : ∀ c ∈ c0 :: combs2, (replaceBracket c).length = 1 := by
          intro c hc
          have hnone := findB_none_of_counts_nil c (h c hc).2.1
          rw [replaceBracket, hnone]
          rfl
        have hflag : (((c0 :: combs2).map replaceBracket).all
            fun comb => comb.length != 1) = false := by
          apply List.all_eq_false.mpr
          refine ⟨replaceBracket c0, List.mem_map_of_mem replaceBracket (by simp), ?_⟩
          rw [hlen1 c0 (by simp)]
          simp
        rw [findLoop, if_neg (by rw [hflag]; simp)]
        rw [flatten_length_eq (c0 :: combs2) 1 hlen1]
        simp
      | k :: g2 =>
        have hfacts : ∀ c ∈ c0 :: combs2,
            (replaceBracket c).length = k ∧
            ∀ r ∈ replaceBracket c, wellFormed r = true ∧ groupCounts r = g2 ∧
              dollarFree r = true := by
          intro c hc
          obtain ⟨hwfc, hgc, hndc⟩ := h c hc
          obtain ⟨p, i, suf, hfB⟩ := findB_some_of_counts_cons c k g2 hgc
          obtain ⟨hco, hlen, hr⟩ := expansion_facts c p i suf hwfc hndc hfB
          rw [hgc] at hco
          have hk : (splitOnChar ',' i).length = k := (List.cons_eq_cons.mp hco.symm).1
          have hg2 : groupCounts suf = g2 := (List.cons_eq_cons.mp hco.symm).2
          exact ⟨by rw [hlen, hk], fun r hrr =>
            ⟨(hr r hrr).1, by rw [(hr r hrr).2.1, hg2], (hr r hrr).2.2⟩⟩
        have hflatlen : (((c0 :: combs2).map replaceBracket).flatten).length =
            (c0 :: combs2).length * k :=
          flatten_length_eq (c0 :: combs2) k (fun c hc => (hfacts c hc).1)
        have hflat_inv : ∀ r ∈ ((c0 :: combs2).map replaceBracket).flatten,
            wellFormed r = true ∧ groupCounts r = g2 ∧ dollarFree r = true := by
          intro r hr
          obtain ⟨l, hl, hrl⟩ := List.mem_flatten.mp hr
          obtain ⟨c, hc, rfl⟩ := List.mem_map.mp hl
          exact (hfacts c hc).2 r hrl
        have hg2pos : 1 ≤ g2.prod := by
          have hgc := (h c0 (by simp)).2.1
          apply one_le_prodList
          intro j hj
          exact groupCounts_pos c0 j (by rw [hgc]; exact List.mem_cons_of_mem k hj)
        by_cases hflag : (((c0 :: combs2).map replaceBracket).all
            fun comb => comb.length != 1) = true
        · rw [findLoop, if_pos hflag]
          calc (findLoop fuel (((c0 :: combs2).map replaceBracket).flatten)).length
              ≤ (((c0 :: combs2).map replaceBracket).flatten).length * g2.prod :=
                findLoop_length fuel _ g2 hflat_inv
            _ = (c0 :: combs2).length * (k * g2.prod) := by rw [hflatlen]; ring
            _ = (c0 :: combs2).length * (k :: g2).prod := by rw [List.prod_cons]
        · rw [findLoop, if_neg hflag]
          calc (((c0 :: combs2).map replaceBracket).flatten).length
              = (c0 :: combs2).length * k := hflatlen
            _ ≤ (c0 :: combs2).length * (k * g2.prod) := by
                apply Nat.mul_le_mul_left
                calc k = k * 1 := by ring
                  _ ≤ k * g2.prod := Nat.mul_le_mul_left _ hg2pos
            _ = (c0 :: combs2).length * (k :: g2).prod := by rw [List.prod_cons]

/-- First-occurrence deduplication yields distinct values avoiding the seen
set. -/
theorem setDedupAux_spec : ∀ (seen l : List (List Char)),
    (setDedupAux seen l).Nodup ∧ ∀ x ∈ setDedupAux seen l, x ∉ seen
  | _, [] => ⟨List.nodup_nil, by simp [setDedupAux]⟩
  | seen, a :: rest => by
    by_cases ha : a ∈ seen
    · rw [setDedupAux, if_pos ha]
      exact setDedupAux_spec seen rest
    · rw [setDedupAux, if_neg ha]
      obtain ⟨hnd, hnm⟩ := setDedupAux_spec (a :: seen) rest
      constructor
      · exact List.nodup_cons.mpr ⟨fun hmem => (hnm a hmem) (by simp), hnd⟩
      · intro x hx
        rcases List.mem_cons.mp hx with h1 | h1
        · subst h1; exact ha
        · exact fun hxs => (hnm x h1) (List.mem_cons_of_mem a hxs)

/-- Deduplication never lengthens a list. -/
theorem setDedupAux_length : ∀ (seen l : List (List Char)),
    (setDedupAux seen l).length ≤ l.length
  | _, [] => le_refl 0
  | seen, a :: rest => by
    by_cases ha : a ∈ seen
    · rw [setDedupAux, if_pos ha]
      calc (setDedupAux seen rest).length ≤ rest.length := setDedupAux_length seen rest
        _ ≤ (a :: rest).length := by simp
    · rw [setDedupAux, if_neg ha]
      rw [List.length_cons, List.length_cons]
      exact Nat.succ_le_succ (setDedupAux_length (a :: seen) rest)

/-- Counterexample for C2: on the non-nested input `\x7ba,a\x7d` the two
expansion paths coincide, so the yielded set has one element while the
product of the groups' alternative counts is two. -/
theorem expandBraces_card_ne_product :
    wellFormed ("\x7ba,a\x7d".data) = true ∧
    (groupCounts ("\x7ba,a\x7d".data)).prod = 2 ∧
    (expandBracesList ("\x7ba,a\x7d".data)).length = 1 := by
  decide

/-- C2 (amended): for every input whose brace groups are non-nested and which
contains no dollar sign (so the `$`-substitution of `String.replace` is
inert), the yielded strings are pairwise distinct and their number is at most
the product of the groups' alternative counts (equality can fail when two
expansion paths produce the same literal string, and when a
single-alternative group stops the rewriting loop early; with dollar signs
even the upper bound can fail, as `$&` re-inserts the matched group). -/
theorem expandBraces_nodup_card_le (s : List Char) (hwf : wellFormed s = true)
    (hnd : dollarFree s = true) :
    (expandBracesList s).Nodup ∧
    (expandBracesList s).length ≤ (groupCounts s).prod := by
  constructor
  · exact (setDedupAux_spec [] (findBracets s)).1
  · calc (expandBracesList s).length ≤ (findBracets s).length :=
        setDedupAux_length [] (findBracets s)
      _ ≤ ([s] : List (List Char)).length * (groupCounts s).prod := by
        apply findLoop_length
        intro c hc
        rw [List.mem_singleton] at hc
        subst hc
        exact ⟨hwf, rfl, hnd⟩
      _ = (groupCounts s).prod := by simp

/-- Witness for C2 at a concrete two-group input. -/
theorem expandBraces_nodup_card_le_witness :
    wellFormed ("\x7ba,b\x7dc\x7bd,e\x7d".data) = true ∧
    dollarFree ("\x7ba,b\x7dc\x7bd,e\x7d".data) = true ∧
    (expandBracesList ("\x7ba,b\x7dc\x7bd,e\x7d".data)).Nodup ∧
    (expandBracesList ("\x7ba,b\x7dc\x7bd,e\x7d".data)).length ≤
      (groupCounts ("\x7ba,b\x7dc\x7bd,e\x7d".data)).prod :=
  ⟨by decide, by decide,
    (expandBraces_nodup_card_le ("\x7ba,b\x7dc\x7bd,e\x7d".data) (by decide)
      (by decide)).1,
    (expandBraces_nodup_card_le ("\x7ba,b\x7dc\x7bd,e\x7d".data) (by decide)
      (by decide)).2⟩

/-- The loop body of `findBracets`, iterated without the exit test. -/
def loopIter : Nat → List (List Char) → List (List Char)
  | 0, combs => combs
  | n + 1, combs => loopIter n ((combs.map replaceBracket).flatten)

/-- On a candidate that is a brace-free prefix followed by the group
`\x7ba$&,c$&\x7d`, `$&` re-inserts the matched group: both alternatives keep
the group, with one more letter in front. -/
theorem dollarStep (u : List Char) (hfree : braceFree u = true) :
    replaceBracket (u ++ "\x7ba$&,c$&\x7d".data) =
      [u ++ ('a' :: "\x7ba$&,c$&\x7d".data), u ++ ('c' :: "\x7ba$&,c$&\x7d".data)] := by
  have hfB : findB (u ++ "\x7ba$&,c$&\x7d".data) =
      some (u ++ [], "a$&,c$&".data, []) := by
    rw [findB_braceFree_front u _ hfree]
    rfl
  rw [replaceBracket, hfB]
  dsimp only
  rw [show splitOnChar ',' ("a$&,c$&".data) = ["a$&".data, "c$&".data] from rfl]
  rw [List.map_cons, List.map_cons, List.map_nil]
  dsimp only
  rw [show getSubstitution ('\x7b' :: ("a$&,c$&".data ++ ['\x7d'])) (u ++ []) []
      ("a$&".data) = 'a' :: "\x7ba$&,c$&\x7d".data from rfl]
  rw [show getSubstitution ('\x7b' :: ("a$&,c$&".data ++ ['\x7d'])) (u ++ []) []
      ("c$&".data) = 'c' :: "\x7ba$&,c$&\x7d".data from rfl]
  simp

/-- The persistent candidate shape survives one loop body. -/
theorem dollarInv_step (combs : List (List Char))
    (h : ∀ c ∈ combs, ∃ u, braceFree u = true ∧ c = u ++ "\x7ba$&,c$&\x7d".data) :
    ∀ c ∈ (combs.map replaceBracket).flatten,
      ∃ u, braceFree u = true ∧ c = u ++ "\x7ba$&,c$&\x7d".data := by
  intro c hc
  obtain ⟨l, hl, hcl⟩ := List.mem_flatten.mp hc
  obtain ⟨c0, hc0, rfl⟩ := List.mem_map.mp hl
  obtain ⟨u, hfree, rfl⟩ := h c0 hc0
  rw [dollarStep u hfree] at hcl
  rcases List.mem_cons.mp hcl with h1 | h1
  · refine ⟨u ++ ['a'], braceFree_append u ['a'] hfree (by decide), ?_⟩
    rw [h1, List.append_assoc]
    rfl
  · rcases List.mem_cons.mp h1 with h2 | h2
    · refine ⟨u ++ ['c'], braceFree_append u ['c'] hfree (by decide), ?_⟩
      rw [h2, List.append_assoc]
      rfl
    · simp at h2

/-- The persistent candidate shape survives any number of loop bodies. -/
theorem loopIter_dollar : ∀ (n : Nat) (combs : List (List Char)),
    (∀ c ∈ combs, ∃ u, braceFree u = true ∧ c = u ++ "\x7ba$&,c$&\x7d".data) →
    ∀ c ∈ loopIter n combs, ∃ u, braceFree u = true ∧ c = u ++ "\x7ba$&,c$&\x7d".data
  | 0, _, h => h
  | n + 1, combs, h => by
    rw [loopIter]
    exact loopIter_dollar n _ (dollarInv_step combs h)

/-- While every candidate has the persistent shape, the exit flag stays true
and the fuelled loop just burns its fuel. -/
theorem findLoop_dollar : ∀ (fuel : Nat) (combs : List (List Char)),
    (∀ c ∈ combs, ∃ u, braceFree u = true ∧ c = u ++ "\x7ba$&,c$&\x7d".data) →
    findLoop fuel combs = loopIter fuel combs
  | 0, _, _ => rfl
  | fuel + 1, combs, h => by
    have hflag : ((combs.map replaceBracket).all (fun comb => comb.length != 1)) = true := by
      apply List.all_eq_true.mpr
      intro comb hcomb
      obtain ⟨c, hc, rfl⟩ := List.mem_map.mp hcomb
      obtain ⟨u, hfree, rfl⟩ := h c hc
      rw [dollarStep u hfree]
      rfl
    rw [findLoop, if_pos hflag, loopIter]
    exact findLoop_dollar fuel _ (dollarInv_step combs h)

/-- C9 (refuted): `String.replace` substitutes `$&` by the matched text, so on
the balanced input `\x7ba$&,c$&\x7d` every rewrite re-creates the group: a
rewrite does not lower the opening-brace count, after every number of
iterations every candidate still rewrites to two candidates - the stop flag of
the `while` loop never becomes false - and the fuelled loop exhausts any
amount of fuel without reaching its exit condition. -/
theorem expandBraces_nonterminating :
    balanced ("\x7ba$&,c$&\x7d".data) = true ∧
    (∃ r ∈ replaceBracket ("\x7ba$&,c$&\x7d".data),
      r.count '\x7b' = ("\x7ba$&,c$&\x7d".data).count '\x7b') ∧
    (∀ n, ((loopIter n ["\x7ba$&,c$&\x7d".data]).map replaceBracket).all
      (fun comb => comb.length != 1) = true) ∧
    ∀ fuel, findLoop fuel ["\x7ba$&,c$&\x7d".data] =
      loopIter fuel ["\x7ba$&,c$&\x7d".data] := by
  have hinv : ∀ c ∈ (["\x7ba$&,c$&\x7d".data] : List (List Char)),
      ∃ u, braceFree u = true ∧ c = u ++ "\x7ba$&,c$&\x7d".data := by
    intro c hc
    rw [List.mem_singleton] at hc
    exact ⟨[], rfl, by rw [hc]; rfl⟩
  refine ⟨by decide, by decide, ?_, ?_⟩
  · intro n
    apply List.all_eq_true.mpr
    intro comb hcomb
    obtain ⟨c, hc, rfl⟩ := List.mem_map.mp hcomb
    obtain ⟨u, hfree, hcu⟩ := loopIter_dollar n _ hinv c hc
    rw [hcu, dollarStep u hfree]
    rfl
  · intro fuel
    exact findLoop_dollar fuel _ hinv

/-! ### getZigZagMatrix (10-katas-1-tasks.js, lines 141-163)

The JS code first builds the list of anti-diagonals: walking `i` from `0` to
`2n - 2` with a mutable `step` (set to `-1` once `i` reaches `n`), a running
`diagonalLength` and a `counter`, each diagonal is filled with consecutive
integers.  It then walks the cells in row-major order and takes, for cell
`(i, j)`, one value from diagonal `i + j`: from the front (`shift`) when
`i + j` is odd, from the back (`pop`) when it is even.  Matrix values are
`Int` (the JS counter arithmetic). -/

/-- One iteration of the diagonal-building loop: state is
(step, diagonalLength, counter, diagonals). -/
def diagBuildStep (n : Nat) (st : Int × Int × Int × List (List Int)) (i : Nat) :
    Int × Int × Int × List (List Int) :=
  let step : Int := if i = n then -1 else st.1
  let diagonalLength : Int := st.2.1 + step
  let counter : Int := st.2.2.1
  let diagonal := (List.range diagonalLength.toNat).map (fun (k : Nat) => counter + 1 + (k : Int))
  (step, diagonalLength, counter + (diagonalLength.toNat : Int), st.2.2.2 ++ [diagonal])

/-- The `diagonals` list of the source. -/
def diagBuild (n : Nat) : List (List Int) :=
  ((List.range (n + n - 1)).foldl (diagBuildStep n) (1, 0, -1, [])).2.2.2

/-- One cell of the fill loop: `shift` from the front of diagonal `i + j`
when `i + j` is odd, `pop` from its back otherwise. -/
def fillStep (i : Nat) (st : List Int × List (List Int)) (j : Nat) :
    List Int × List (List Int) :=
  let d := i + j
  let diagonal := st.2.getD d []
  if d % 2 = 1 then (st.1 ++ [diagonal.headD 0], st.2.set d diagonal.tail)
  else (st.1 ++ [diagonal.getLastD 0], st.2.set d diagonal.dropLast)

/-- Translation of `getZigZagMatrix`. -/
def getZigZagMatrix (n : Nat) : List (List Int) :=
  ((List.range n).foldl (fun st i =>
    let r := (List.range n).foldl (fillStep i) ([], st.2)
    (st.1 ++ [r.1], r.2)) (([], diagBuild n) : List (List Int) × List (List Int))).1

example : getZigZagMatrix 1 = [[0]] := by decide

example : getZigZagMatrix 2 = [[0, 1], [2, 3]] := by decide

example : getZigZagMatrix 3 = [[0, 1, 5], [2, 4, 6], [3, 7, 8]] := by decide

example : getZigZagMatrix 4 =
    [[0, 1, 5, 6], [2, 4, 7, 12], [3, 8, 11, 13], [9, 10, 14, 15]] := by decide

/-- Length of anti-diagonal `d` of an `n` by `n` grid. -/
def diagLen (n d : Nat) : Nat := if d < n then d + 1 else 2 * n - 1 - d

/-- First value placed on anti-diagonal `d`. -/
def diagStart (n : Nat) : Nat → Nat
  | 0 => 0
  | d + 1 => diagStart n d + diagLen n d

/-- The consecutive integer segment starting at `a` of length `len`. -/
def segInt (a len : Nat) : List Int :=
  (List.range len).map (fun (k : Nat) => ((a + k : Nat) : Int))

/-- Content of anti-diagonal `d` as built by the source. -/
def origDiag (n d : Nat) : List Int := segInt (diagStart n d) (diagLen n d)

/-- Invariant of the diagonal-building loop after `m` iterations. -/
theorem diagBuild_invariant (n : Nat) (hn : 1 ≤ n) : ∀ (m : Nat), m ≤ n + n - 1 →
    (List.range m).foldl (diagBuildStep n) (1, 0, -1, []) =
      ((if n < m then -1 else 1 : Int),
       (if m = 0 then 0 else (diagLen n (m - 1) : Int)),
       ((diagStart n m : Int) - 1),
       (List.range m).map (origDiag n)) := by
  intro m
  induction m with
  | zero => intro _; rfl
  | succ m ih =>
    intro hm
    rw [List.range_succ, List.foldl_append, ih (by omega), List.foldl_cons, List.foldl_nil]
    show diagBuildStep n _ m = _
    unfold diagBuildStep
    have hstep : (if m = n then (-1 : Int) else if n < m then -1 else 1) =
        (if n < m + 1 then -1 else 1) := by
      split_ifs <;> omega
    have hlen : ((if m = 0 then 0 else (diagLen n (m - 1) : Int)) +
        (if n < m + 1 then -1 else 1)) = (diagLen n m : Int) := by
      simp only [diagLen]
      split_ifs <;> push_cast <;> omega
    simp only [hstep]
    rw [show ((if m = 0 then 0 else (diagLen n (m - 1) : Nat)) : Int) +
          (if n < m + 1 then -1 else 1) = (diagLen n m : Int) from hlen]
    have htoNat : ((diagLen n m : Int)).toNat = diagLen n m := Int.toNat_natCast _
    rw [htoNat]
    have hdiag : (List.range (diagLen n m)).map
        (fun (k : Nat) => (diagStart n m : Int) - 1 + 1 + (k : Int)) =
        origDiag n m := by
      unfold origDiag segInt
      apply List.map_congr_left
      intro k _
      push_cast
      ring
    rw [hdiag]
    have hcounter : (diagStart n m : Int) - 1 + (diagLen n m : Int) =
        (diagStart n (m + 1) : Int) - 1 := by
      rw [show diagStart n (m + 1) = diagStart n m + diagLen n m from rfl]
      push_cast
      ring
    rw [hcounter]
    simp only [Prod.mk.injEq]
    refine ⟨trivial, ?_, trivial, ?_⟩
    · rw [if_neg (by omega : ¬(m + 1 = 0))]
      norm_num
    · rw [List.map_append]
      rfl

/-- Closed form of the built diagonals. -/
theorem diagBuild_eq (n : Nat) (hn : 1 ≤ n) :
    diagBuild n = (List.range (n + n - 1)).map (origDiag n) := by
  unfold diagBuild
  rw [diagBuild_invariant n hn (n + n - 1) (le_refl _)]

/-- Adjacent segments concatenate. -/
theorem segInt_append (s a b : Nat) :
    segInt s a ++ segInt (s + a) b = segInt s (a + b) := by
  unfold segInt
  rw [List.range_add a b, List.map_append, List.map_map]
  congr 1
  apply List.map_congr_left
  intro k _
  simp only [Function.comp_apply]
  congr 1
  omega

/-- The diagonals flatten to one consecutive segment. -/
theorem flatten_origDiag (n : Nat) : ∀ (m : Nat),
    ((List.range m).map (origDiag n)).flatten = segInt 0 (diagStart n m)
  | 0 => rfl
  | m + 1 => by
    rw [List.range_succ, List.map_append, List.flatten_append, flatten_origDiag n m]
    rw [show ((List.map (origDiag n) [m]).flatten) = origDiag n m by simp]
    rw [show origDiag n m = segInt (0 + diagStart n m) (diagLen n m) by
      unfold origDiag; rw [Nat.zero_add]]
    rw [segInt_append 0 (diagStart n m) (diagLen n m)]
    rfl

/-- Triangle numbers. -/
def triNum : Nat → Nat
  | 0 => 0
  | n + 1 => triNum n + (n + 1)

/-- Twice a triangle number. -/
theorem two_triNum : ∀ (n : Nat), 2 * triNum n = n * (n + 1)
  | 0 => rfl
  | n + 1 => by
    rw [show triNum (n + 1) = triNum n + (n + 1) from rfl]
    rw [show 2 * (triNum n + (n + 1)) = 2 * triNum n + 2 * (n + 1) by ring]
    rw [two_triNum n]
    ring

/-- Before the middle, diagonal starts are triangle numbers. -/
theorem diagStart_le_n (n : Nat) : ∀ (m : Nat), m ≤ n → diagStart n m = triNum m
  | 0, _ => rfl
  | m + 1, h => by
    rw [show diagStart n (m + 1) = diagStart n m + diagLen n m from rfl]
    rw [diagStart_le_n n m (by omega)]
    unfold diagLen
    rw [if_pos (by omega)]
    rfl

/-- Doubled closed form of the diagonal starts past the middle. -/
theorem diagStart_two_mul (n : Nat) (hn : 1 ≤ n) : ∀ (j : Nat), j ≤ n - 1 →
    2 * (diagStart n (n + j) : Int) + (j : Int) * (j : Int) =
      2 * (triNum n : Int) + (j : Int) * (2 * (n : Int) - 1)
  | 0, _ => by
    rw [show n + 0 = n from rfl, diagStart_le_n n n (le_refl n)]
    push_cast
    ring
  | j + 1, h => by
    have ih := diagStart_two_mul n hn j (by omega)
    have hlen2 : (diagLen n (n + j) : Int) = (n : Int) - 1 - (j : Int) := by
      unfold diagLen
      rw [if_neg (by omega)]
      omega
    have hS : (diagStart n (n + (j + 1)) : Int) =
        (diagStart n (n + j) : Int) + ((n : Int) - 1 - (j : Int)) := by
      rw [show n + (j + 1) = (n + j) + 1 by omega]
      rw [show diagStart n ((n + j) + 1) = diagStart n (n + j) + diagLen n (n + j) from rfl]
      push_cast
      rw [hlen2]
    push_cast
    push_cast at ih hS
    linear_combination ih + 2 * hS

/-- The diagonal starts exhaust the square. -/
theorem diagStart_total (n : Nat) (hn : 1 ≤ n) : diagStart n (n + n - 1) = n * n := by
  have h1 := diagStart_two_mul n hn (n - 1) (le_refl _)
  have h2 : 2 * (triNum n : Int) = (n : Int) * ((n : Int) + 1) := by
    have h := two_triNum n
    have h3 : ((2 * triNum n : Nat) : Int) = ((n * (n + 1) : Nat) : Int) := by rw [h]
    push_cast at h3
    linarith
  have hc : ((n - 1 : Nat) : Int) = (n : Int) - 1 := by omega
  rw [hc] at h1
  have hrw : n + (n - 1) = n + n - 1 := by omega
  rw [hrw] at h1
  have hgoal : 2 * (diagStart n (n + n - 1) : Int) = 2 * ((n : Int) * (n : Int)) := by
    linear_combination h1 + h2
  have hgoal2 : (diagStart n (n + n - 1) : Int) = (n : Int) * (n : Int) := by omega
  have := hgoal2
  rw [show ((n : Int) * (n : Int)) = ((n * n : Nat) : Int) by push_cast; ring] at this
  exact Nat.cast_injective this

/-- Number of cells among the first `t` cells in row-major order (cell `s`
is at row `s / n`, column `s % n`) that lie on anti-diagonal `d`. -/
def countCells (n d t : Nat) : Nat :=
  ((List.range t).filter (fun s => decide (s / n + s % n = d))).length

/-- One more cell increments at most the count of its own diagonal. -/
theorem countCells_succ (n d t : Nat) :
    countCells n d (t + 1) =
      countCells n d t + (if t / n + t % n = d then 1 else 0) := by
  unfold countCells
  rw [List.range_succ, List.filter_append, List.length_append]
  congr 1
  by_cases h : t / n + t % n = d
  · rw [if_pos h]
    simp [List.filter_cons, h]
  · rw [if_neg h]
    simp [List.filter_cons, h]

/-- Counting one fixed value inside an initial segment. -/
theorem filter_range_eq_single (x : Nat) : ∀ (m : Nat),
    ((List.range m).filter (fun c => decide (c = x))).length = if x < m then 1 else 0
  | 0 => by rw [if_neg (by omega)]; rfl
  | m + 1 => by
    rw [List.range_succ, List.filter_append, List.length_append,
      filter_range_eq_single x m]
    have hf : (List.filter (fun c => decide (c = x)) [m]).length =
        if m = x then 1 else 0 := by
      by_cases h : m = x <;> simp [List.filter_cons, h]
    rw [hf]
    split_ifs <;> omega

/-- A row of the grid contributes one cell to diagonal `d` iff `d` crosses it. -/
theorem filter_range_rowContrib (n r d : Nat) :
    ((List.range n).filter (fun c => decide (r + c = d))).length =
      if r ≤ d ∧ d < r + n then 1 else 0 := by
  by_cases hr : r ≤ d
  · have hfun : ∀ c ∈ List.range n, decide (r + c = d) = decide (c = d - r) := by
      intro c _
      by_cases h : r + c = d
      · rw [decide_eq_true h, decide_eq_true (show c = d - r by omega)]
      · rw [decide_eq_false h, decide_eq_false (show ¬(c = d - r) by omega)]
    rw [List.filter_congr hfun, filter_range_eq_single (d - r) n]
    split_ifs <;> omega
  · have hnil : List.filter (fun c => decide (r + c = d)) (List.range n) = [] := by
      rw [List.filter_eq_nil_iff]
      intro c _
      simp only [decide_eq_true_eq]
      omega
    rw [hnil, if_neg (by omega)]
    rfl

/-- Closed form for counting an interval of rows crossing diagonal `d`. -/
theorem filter_range_interval (n d : Nat) : ∀ (m : Nat),
    ((List.range m).filter (fun r => decide (r ≤ d ∧ d < r + n))).length =
      min (d + 1) m - min (d + 1 - n) m
  | 0 => by simp
  | m + 1 => by
    rw [List.range_succ, List.filter_append, List.length_append,
      filter_range_interval n d m]
    have hf : (List.filter (fun r => decide (r ≤ d ∧ d < r + n)) [m]).length =
        if m ≤ d ∧ d < m + n then 1 else 0 := by
      by_cases h : m ≤ d ∧ d < m + n <;> simp [List.filter_cons, h]
    rw [hf]
    split_ifs with h <;> omega

/-- Cell counts accumulated along one row of the grid. -/
theorem countCells_add_row (n : Nat) (hn : 1 ≤ n) (d i : Nat) : ∀ (c : Nat), c ≤ n →
    countCells n d (i * n + c) =
      countCells n d (i * n) +
        ((List.range c).filter (fun j => decide (i + j = d))).length
  | 0, _ => by
    rw [show i * n + 0 = i * n from rfl]
    rfl
  | c + 1, h => by
    rw [show i * n + (c + 1) = (i * n + c) + 1 from rfl, countCells_succ,
      countCells_add_row n hn d i c (by omega)]
    have hdiv : (i * n + c) / n = i := by
      rw [Nat.mul_comm, Nat.mul_add_div hn, Nat.div_eq_of_lt (by omega)]
      omega
    have hmod : (i * n + c) % n = c := by
      rw [Nat.mul_comm, Nat.mul_add_mod]
      exact Nat.mod_eq_of_lt (by omega)
    rw [hdiv, hmod, List.range_succ, List.filter_append, List.length_append]
    have hf : (List.filter (fun j => decide (i + j = d)) [c]).length =
        if i + c = d then 1 else 0 := by
      by_cases hc : i + c = d <;> simp [List.filter_cons, hc]
    rw [hf]
    omega

/-- Cell counts after `i` full rows of the grid. -/
theorem countCells_rows (n : Nat) (hn : 1 ≤ n) (d : Nat) : ∀ (i : Nat),
    countCells n d (i * n) =
      ((List.range i).filter (fun r => decide (r ≤ d ∧ d < r + n))).length
  | 0 => by rw [Nat.zero_mul]; rfl
  | i + 1 => by
    rw [show (i + 1) * n = i * n + n by ring, countCells_add_row n hn d i n (le_refl n),
      countCells_rows n hn d i, filter_range_rowContrib n i d,
      List.range_succ, List.filter_append, List.length_append]
    have hf : (List.filter (fun r => decide (r ≤ d ∧ d < r + n)) [i]).length =
        if i ≤ d ∧ d < i + n then 1 else 0 := by
      by_cases hc : i ≤ d ∧ d < i + n <;> simp [List.filter_cons, hc]
    rw [hf]

/-- Every diagonal is exhausted exactly after all `n * n` cells. -/
theorem countCells_total (n : Nat) (hn : 1 ≤ n) (d : Nat) :
    countCells n d (n * n) = diagLen n d := by
  rw [countCells_rows n hn d n, filter_range_interval n d n]
  unfold diagLen
  split_ifs <;> omega

/-- Cell counts are monotone in the number of processed cells. -/
theorem countCells_mono (n d : Nat) : ∀ (u t : Nat), t ≤ u →
    countCells n d t ≤ countCells n d u
  | 0, t, h => by rw [Nat.le_zero.mp h]
  | u + 1, t, h => by
    by_cases ht : t = u + 1
    · rw [ht]
    · have := countCells_mono n d u t (by omega)
      rw [countCells_succ]
      omega

/-- While cells remain, a cell's own diagonal is not yet exhausted. -/
theorem countCells_lt (n : Nat) (hn : 1 ≤ n) (t : Nat) (ht : t < n * n) :
    countCells n (t / n + t % n) t < diagLen n (t / n + t % n) := by
  have h1 : countCells n (t / n + t % n) (t + 1) =
      countCells n (t / n + t % n) t + 1 := by
    rw [countCells_succ, if_pos rfl]
  have h2 := countCells_mono n (t / n + t % n) (n * n) (t + 1) (by omega)
  rw [countCells_total n hn (t / n + t % n)] at h2
  omega

/-- A cell of the square lies on one of the `2n - 1` anti-diagonals. -/
theorem diag_lt (n : Nat) (hn : 1 ≤ n) (t : Nat) (ht : t < n * n) :
    t / n + t % n < n + n - 1 := by
  have h1 : t / n < n := (Nat.div_lt_iff_lt_mul (by omega)).mpr ht
  have h2 : t % n < n := Nat.mod_lt t (by omega)
  omega

/-- State of anti-diagonal `d` after the first `t` cells of the fill loop:
odd diagonals are consumed from the front (`shift`), even ones from the back (`pop`). -/
def diagAt (n t d : Nat) : List Int :=
  if d % 2 = 1 then (origDiag n d).drop (countCells n d t)
  else (origDiag n d).take (diagLen n d - countCells n d t)

/-- The whole `diagonals` array after the first `t` cells of the fill loop. -/
def diagsAt (n t : Nat) : List (List Int) :=
  (List.range (n + n - 1)).map (diagAt n t)

/-- Value the fill loop writes at linear cell `t`. -/
def cellVal (n t : Nat) : Int :=
  if (t / n + t % n) % 2 = 1 then
    ((diagStart n (t / n + t % n) + countCells n (t / n + t % n) t : Nat) : Int)
  else
    ((diagStart n (t / n + t % n) +
      (diagLen n (t / n + t % n) - countCells n (t / n + t % n) t - 1) : Nat) : Int)

/-- Before any cell is filled the diagonals array is the built one. -/
theorem diagsAt_zero (n : Nat) (hn : 1 ≤ n) : diagsAt n 0 = diagBuild n := by
  rw [diagBuild_eq n hn]
  unfold diagsAt
  apply List.map_congr_left
  intro d _
  unfold diagAt
  have h0 : countCells n d 0 = 0 := rfl
  have hlen : (origDiag n d).length = diagLen n d := by
    unfold origDiag segInt
    rw [List.length_map, List.length_range]
  rw [h0]
  by_cases h : d % 2 = 1
  · rw [if_pos h, List.drop_zero]
  · rw [if_neg h, Nat.sub_zero, ← hlen, List.take_length]

/-- Indexing a mapped range. -/
theorem getD_map_range (m d : Nat) (f : Nat → List Int) (h : d < m) :
    ((List.range m).map f).getD d [] = f d := by
  rw [List.getD_eq_getElem?_getD, List.getElem?_map, List.getElem?_range h]
  rfl

/-- Updating one entry of a mapped range. -/
theorem set_map_range (m d : Nat) (f : Nat → List Int) (v : List Int) :
    ((List.range m).map f).set d v =
      (List.range m).map (fun e => if e = d then v else f e) := by
  apply List.ext_getElem
  · rw [List.length_set, List.length_map, List.length_map]
  · intro i h1 h2
    simp only [List.getElem_set, List.getElem_map, List.getElem_range]
    by_cases hi : d = i
    · rw [if_pos hi, if_pos hi.symm]
    · rw [if_neg hi, if_neg (fun hh => hi hh.symm)]

/-- Last element of a nonempty prefix. -/
theorem getLastD_take (l : List Int) (m : Nat) (h1 : 1 ≤ m) (h2 : m ≤ l.length) :
    (l.take m).getLastD 0 = l.getD (m - 1) 0 := by
  rw [List.getLastD_eq_getLast?, List.getLast?_eq_getElem?, List.length_take,
    show min m l.length = m by omega, List.getElem?_take, if_pos (by omega),
    List.getD_eq_getElem?_getD]

/-- Dropping the last element of a prefix shortens the prefix. -/
theorem dropLast_take (l : List Int) (m : Nat) (h2 : m ≤ l.length) :
    (l.take m).dropLast = l.take (m - 1) := by
  rw [List.dropLast_eq_take, List.length_take, List.take_take]
  congr 1
  omega

/-- One fill step writes `cellVal` and advances the diagonals state. -/
theorem fillStep_eq (n : Nat) (hn : 1 ≤ n) (t : Nat) (ht : t < n * n) (acc : List Int) :
    fillStep (t / n) (acc, diagsAt n t) (t % n) =
      (acc ++ [cellVal n t], diagsAt n (t + 1)) := by
  have hd : t / n + t % n < n + n - 1 := diag_lt n hn t ht
  have hk : countCells n (t / n + t % n) t < diagLen n (t / n + t % n) :=
    countCells_lt n hn t ht
  have hlenO : (origDiag n (t / n + t % n)).length = diagLen n (t / n + t % n) := by
    unfold origDiag segInt
    rw [List.length_map, List.length_range]
  have hsucc : countCells n (t / n + t % n) (t + 1) =
      countCells n (t / n + t % n) t + 1 := by
    rw [countCells_succ, if_pos rfl]
  have hgetD : (diagsAt n t).getD (t / n + t % n) [] = diagAt n t (t / n + t % n) := by
    unfold diagsAt
    exact getD_map_range _ _ _ hd
  unfold fillStep
  dsimp only
  rw [hgetD]
  by_cases hpar : (t / n + t % n) % 2 = 1
  · rw [if_pos hpar]
    rw [show diagAt n t (t / n + t % n) =
        (origDiag n (t / n + t % n)).drop (countCells n (t / n + t % n) t) by
      unfold diagAt; rw [if_pos hpar]]
    have hhead : ((origDiag n (t / n + t % n)).drop
        (countCells n (t / n + t % n) t)).headD 0 = cellVal n t := by
      rw [List.headD_eq_head?_getD, List.head?_drop,
        List.getElem?_eq_getElem (show countCells n (t / n + t % n) t <
          (origDiag n (t / n + t % n)).length by omega)]
      unfold cellVal
      rw [if_pos hpar]
      unfold origDiag segInt
      simp only [List.getElem_map, List.getElem_range, Option.getD_some]
    have htail : ((origDiag n (t / n + t % n)).drop
        (countCells n (t / n + t % n) t)).tail =
        (origDiag n (t / n + t % n)).drop (countCells n (t / n + t % n) (t + 1)) := by
      rw [List.tail_drop, hsucc]
    rw [hhead, htail]
    unfold diagsAt
    rw [set_map_range]
    refine congrArg (fun x => (acc ++ [cellVal n t], x)) ?_
    apply List.map_congr_left
    intro e he
    by_cases heq : e = t / n + t % n
    · rw [if_pos heq, heq]
      unfold diagAt
      rw [if_pos hpar]
    · rw [if_neg heq]
      unfold diagAt
      rw [show countCells n e (t + 1) = countCells n e t by
        rw [countCells_succ, if_neg (fun hh => heq hh.symm), Nat.add_zero]]
  · rw [if_neg hpar]
    rw [show diagAt n t (t / n + t % n) =
        (origDiag n (t / n + t % n)).take
          (diagLen n (t / n + t % n) - countCells n (t / n + t % n) t) by
      unfold diagAt; rw [if_neg hpar]]
    have hm1 : 1 ≤ diagLen n (t / n + t % n) - countCells n (t / n + t % n) t := by
      omega
    have hm2 : diagLen n (t / n + t % n) - countCells n (t / n + t % n) t ≤
        (origDiag n (t / n + t % n)).length := by
      omega
    have hlast : ((origDiag n (t / n + t % n)).take
        (diagLen n (t / n + t % n) - countCells n (t / n + t % n) t)).getLastD 0 =
        cellVal n t := by
      rw [getLastD_take _ _ hm1 hm2]
      unfold cellVal
      rw [if_neg hpar]
      rw [List.getD_eq_getElem?_getD, List.getElem?_eq_getElem
        (show diagLen n (t / n + t % n) - countCells n (t / n + t % n) t - 1 <
          (origDiag n (t / n + t % n)).length by omega)]
      unfold origDiag segInt
      simp only [List.getElem_map, List.getElem_range, Option.getD_some]
    have hdrop : ((origDiag n (t / n + t % n)).take
        (diagLen n (t / n + t % n) - countCells n (t / n + t % n) t)).dropLast =
        (origDiag n (t / n + t % n)).take
          (diagLen n (t / n + t % n) - countCells n (t / n + t % n) (t + 1)) := by
      rw [dropLast_take _ _ hm2, hsucc]
      congr 1
    rw [hlast, hdrop]
    unfold diagsAt
    rw [set_map_range]
    refine congrArg (fun x => (acc ++ [cellVal n t], x)) ?_
    apply List.map_congr_left
    intro e he
    by_cases heq : e = t / n + t % n
    · rw [if_pos heq, heq]
      unfold diagAt
      rw [if_neg hpar]
    · rw [if_neg heq]
      unfold diagAt
      rw [show countCells n e (t + 1) = countCells n e t by
        rw [countCells_succ, if_neg (fun hh => heq hh.symm), Nat.add_zero]]

/-- Invariant of the inner (column) loop of the fill phase. -/
theorem fillRow_eq (n : Nat) (hn : 1 ≤ n) (i : Nat) (hi : i < n) : ∀ (c : Nat), c ≤ n →
    (List.range c).foldl (fillStep i) (([], diagsAt n (i * n)) :
        List Int × List (List Int)) =
      ((List.range c).map (fun j => cellVal n (i * n + j)), diagsAt n (i * n + c))
  | 0, _ => rfl
  | c + 1, h => by
    rw [List.range_succ, List.foldl_append, fillRow_eq n hn i hi c (by omega),
      List.foldl_cons, List.foldl_nil]
    have ht : i * n + c < n * n := by
      have h1 : i * n + c < (i + 1) * n := by
        have hc : c < n := by omega
        calc i * n + c < i * n + n := by omega
          _ = (i + 1) * n := by ring
      have h2 : (i + 1) * n ≤ n * n := Nat.mul_le_mul_right n hi
      omega
    have hdiv : (i * n + c) / n = i := by
      rw [Nat.mul_comm, Nat.mul_add_div hn, Nat.div_eq_of_lt (by omega)]
      omega
    have hmod : (i * n + c) % n = c := by
      rw [Nat.mul_comm, Nat.mul_add_mod]
      exact Nat.mod_eq_of_lt (by omega)
    have hstep := fillStep_eq n hn (i * n + c) ht
      ((List.range c).map (fun j => cellVal n (i * n + j)))
    rw [hdiv, hmod] at hstep
    rw [hstep, List.map_append]
    rfl

/-- Invariant of the outer (row) loop of the fill phase. -/
theorem fillAll_eq (n : Nat) (hn : 1 ≤ n) : ∀ (m : Nat), m ≤ n →
    (List.range m).foldl (fun st i =>
        let r := (List.range n).foldl (fillStep i) ([], st.2)
        (st.1 ++ [r.1], r.2)) (([], diagBuild n) : List (List Int) × List (List Int)) =
      ((List.range m).map (fun i => (List.range n).map (fun j => cellVal n (i * n + j))),
       diagsAt n (m * n))
  | 0, _ => by
    rw [Nat.zero_mul, diagsAt_zero n hn]
    rfl
  | m + 1, h => by
    rw [List.range_succ, List.foldl_append, fillAll_eq n hn m (by omega),
      List.foldl_cons, List.foldl_nil]
    dsimp only
    rw [fillRow_eq n hn m (by omega) n (le_refl n)]
    rw [show (m + 1) * n = m * n + n by ring]
    rw [List.map_append]
    rfl

/-- `getZigZagMatrix` writes `cellVal` in row-major order. -/
theorem getZigZagMatrix_rows (n : Nat) (hn : 1 ≤ n) :
    getZigZagMatrix n =
      (List.range n).map (fun i => (List.range n).map (fun j => cellVal n (i * n + j))) := by
  unfold getZigZagMatrix
  rw [fillAll_eq n hn n (le_refl n)]

/-- The rows flatten to the row-major list of written values. -/
theorem flatten_rows (n : Nat) : ∀ (m : Nat),
    ((List.range m).map (fun i => (List.range n).map
      (fun j => cellVal n (i * n + j)))).flatten =
      (List.range (m * n)).map (cellVal n)
  | 0 => by rw [Nat.zero_mul]; rfl
  | m + 1 => by
    rw [List.range_succ, List.map_append, List.flatten_append, flatten_rows n m]
    rw [show (m + 1) * n = m * n + n by ring, List.range_add, List.map_append]
    congr 1
    rw [show ((List.map (fun i => (List.range n).map
        (fun j => cellVal n (i * n + j))) [m]).flatten) =
      (List.range n).map (fun j => cellVal n (m * n + j)) by simp]
    rw [List.map_map]
    apply List.map_congr_left
    intro j _
    simp only [Function.comp_apply]

/-- Splitting an initial segment at an interior point. -/
theorem range_split (m d : Nat) (h : d < m) :
    List.range m = List.range d ++ d :: (List.range (m - d - 1)).map (fun k => d + 1 + k) := by
  have h1 : List.range m = List.range (d + (1 + (m - d - 1))) := by
    congr 1
    omega
  rw [h1, List.range_add, List.range_add, List.map_append, List.map_map]
  congr 1
  rw [show List.range 1 = [0] from rfl]
  rw [show (List.map (fun x => d + x) [0]) = [d] by simp]
  rw [List.singleton_append]
  congr 1
  apply List.map_congr_left
  intro k _
  simp only [Function.comp_apply]
  omega

/-- Processing one cell moves its value from the diagonals state to the output:
the state contents shrink by exactly the written value, up to permutation. -/
theorem flatten_diagsAt_perm (n : Nat) (hn : 1 ≤ n) (t : Nat) (ht : t < n * n) :
    List.Perm ((diagsAt n t).flatten) (cellVal n t :: (diagsAt n (t + 1)).flatten) := by
  have hd : t / n + t % n < n + n - 1 := diag_lt n hn t ht
  have hk : countCells n (t / n + t % n) t < diagLen n (t / n + t % n) :=
    countCells_lt n hn t ht
  have hlenO : (origDiag n (t / n + t % n)).length = diagLen n (t / n + t % n) := by
    unfold origDiag segInt
    rw [List.length_map, List.length_range]
  have hsucc : countCells n (t / n + t % n) (t + 1) =
      countCells n (t / n + t % n) t + 1 := by
    rw [countCells_succ, if_pos rfl]
  have hne : ∀ e, e ≠ t / n + t % n → diagAt n (t + 1) e = diagAt n t e := by
    intro e he
    unfold diagAt
    rw [show countCells n e (t + 1) = countCells n e t by
      rw [countCells_succ, if_neg (fun hh => he hh.symm), Nat.add_zero]]
  have hA : (List.range (t / n + t % n)).map (diagAt n (t + 1)) =
      (List.range (t / n + t % n)).map (diagAt n t) := by
    apply List.map_congr_left
    intro e he
    exact hne e (by have := List.mem_range.mp he; omega)
  have hB : ((List.range (n + n - 1 - (t / n + t % n) - 1)).map
        (fun k => t / n + t % n + 1 + k)).map (diagAt n (t + 1)) =
      ((List.range (n + n - 1 - (t / n + t % n) - 1)).map
        (fun k => t / n + t % n + 1 + k)).map (diagAt n t) := by
    apply List.map_congr_left
    intro e he
    obtain ⟨k, _, hk2⟩ := List.mem_map.mp he
    exact hne e (by omega)
  unfold diagsAt
  rw [range_split (n + n - 1) (t / n + t % n) hd]
  rw [List.map_append, List.map_cons, List.map_append, List.map_cons]
  rw [List.flatten_append, List.flatten_cons, List.flatten_append, List.flatten_cons]
  rw [hA, hB]
  by_cases hpar : (t / n + t % n) % 2 = 1
  · have hdiagt : diagAt n t (t / n + t % n) =
        cellVal n t :: diagAt n (t + 1) (t / n + t % n) := by
      unfold diagAt
      rw [if_pos hpar, if_pos hpar, hsucc]
      rw [List.drop_eq_getElem_cons (show countCells n (t / n + t % n) t <
        (origDiag n (t / n + t % n)).length by omega)]
      congr 1
      unfold cellVal
      rw [if_pos hpar]
      unfold origDiag segInt
      simp only [List.getElem_map, List.getElem_range]
    rw [hdiagt, List.cons_append]
    exact List.perm_middle
  · have hdiagt : diagAt n t (t / n + t % n) =
        diagAt n (t + 1) (t / n + t % n) ++ [cellVal n t] := by
      unfold diagAt
      rw [if_neg hpar, if_neg hpar, hsucc]
      rw [show diagLen n (t / n + t % n) - countCells n (t / n + t % n) t =
        (diagLen n (t / n + t % n) - (countCells n (t / n + t % n) t + 1)) + 1 by omega]
      rw [List.take_succ]
      congr 1
      rw [List.getElem?_eq_getElem (show diagLen n (t / n + t % n) -
        (countCells n (t / n + t % n) t + 1) < (origDiag n (t / n + t % n)).length by omega)]
      unfold cellVal
      rw [if_neg hpar]
      unfold origDiag segInt
      simp only [List.getElem_map, List.getElem_range, Option.toList_some]
      rw [show diagLen n (t / n + t % n) - countCells n (t / n + t % n) t - 1 =
        diagLen n (t / n + t % n) - (countCells n (t / n + t % n) t + 1) by omega]
    rw [hdiagt, List.append_assoc, List.singleton_append, ← List.append_assoc]
    refine List.Perm.trans List.perm_middle ?_
    rw [List.append_assoc]

/-- Ledger invariant: output so far plus remaining diagonal contents is,
up to permutation, the full initial diagonal contents. -/
theorem ledger_perm (n : Nat) (hn : 1 ≤ n) : ∀ (t : Nat), t ≤ n * n →
    List.Perm ((List.range t).map (cellVal n) ++ (diagsAt n t).flatten)
      ((diagsAt n 0).flatten)
  | 0, _ => List.Perm.refl _
  | t + 1, h => by
    have ih := ledger_perm n hn t (by omega)
    have hp := flatten_diagsAt_perm n hn t (by omega)
    have heq : (List.range (t + 1)).map (cellVal n) ++ (diagsAt n (t + 1)).flatten =
        (List.range t).map (cellVal n) ++ (cellVal n t :: (diagsAt n (t + 1)).flatten) := by
      rw [List.range_succ, List.map_append, List.append_assoc]
      rfl
    rw [heq]
    exact (List.Perm.append_left _ hp.symm).trans ih

/-- Flattening a list of empty lists. -/
theorem flatten_nil_of_all (f : Nat → List Int) (hAll : ∀ d, f d = []) :
    ∀ (l : List Nat), (l.map f).flatten = ([] : List Int)
  | [] => rfl
  | x :: xs => by
    rw [List.map_cons, List.flatten_cons, hAll x, List.nil_append]
    exact flatten_nil_of_all f hAll xs

/-- After all cells are filled the diagonals array is exhausted. -/
theorem diagsAt_total_flatten (n : Nat) (hn : 1 ≤ n) :
    (diagsAt n (n * n)).flatten = [] := by
  unfold diagsAt
  apply flatten_nil_of_all
  intro d
  unfold diagAt
  rw [countCells_total n hn d]
  by_cases h : d % 2 = 1
  · rw [if_pos h]
    apply List.drop_eq_nil_of_le
    unfold origDiag segInt
    rw [List.length_map, List.length_range]
  · rw [if_neg h, Nat.sub_self]
    exact List.take_zero _

/-- The flattened matrix lists exactly the initially built diagonal values. -/
theorem flatten_perm_segInt (n : Nat) (hn : 1 ≤ n) :
    List.Perm ((getZigZagMatrix n).flatten) (segInt 0 (n * n)) := by
  rw [getZigZagMatrix_rows n hn, flatten_rows n n]
  have h1 := ledger_perm n hn (n * n) (le_refl _)
  rw [diagsAt_total_flatten n hn, List.append_nil] at h1
  have h2 : (diagsAt n 0).flatten = segInt 0 (n * n) := by
    rw [diagsAt_zero n hn, diagBuild_eq n hn, flatten_origDiag n (n + n - 1),
      diagStart_total n hn]
  rw [h2] at h1
  exact h1

/-- C4: for every n ≥ 1 the n by n grid returned by `getZigZagMatrix`, flattened,
is a permutation of the integers 0..n²-1 (here `segInt 0 (n * n)` is the list
0, 1, ..., n²-1), the grid has n rows of n entries each, and in particular
`getZigZagMatrix 1 = [[0]]` and `getZigZagMatrix 2 = [[0,1],[2,3]]`. -/
theorem getZigZagMatrix_permutation (n : Nat) (hn : 1 ≤ n) :
    List.Perm ((getZigZagMatrix n).flatten) (segInt 0 (n * n)) ∧
      (getZigZagMatrix n).length = n ∧
      (∀ row ∈ getZigZagMatrix n, row.length = n) ∧
      getZigZagMatrix 1 = [[0]] ∧ getZigZagMatrix 2 = [[0, 1], [2, 3]] := by
  refine ⟨flatten_perm_segInt n hn, ?_, ?_, by decide, by decide⟩
  · rw [getZigZagMatrix_rows n hn, List.length_map, List.length_range]
  · intro row hrow
    rw [getZigZagMatrix_rows n hn] at hrow
    obtain ⟨r, hr, hrw⟩ := List.mem_map.mp hrow
    rw [← hrw, List.length_map, List.length_range]

/-- Concrete instance of the zig-zag permutation theorem at n = 3. -/
theorem getZigZagMatrix_permutation_witness :
    List.Perm ((getZigZagMatrix 3).flatten) (segInt 0 (3 * 3)) ∧
      (getZigZagMatrix 3).length = 3 ∧
      (∀ row ∈ getZigZagMatrix 3, row.length = 3) ∧
      getZigZagMatrix 1 = [[0]] ∧ getZigZagMatrix 2 = [[0, 1], [2, 3]] :=
  getZigZagMatrix_permutation 3 (by decide)

/-- JavaScript regular-expression whitespace class over the code points in play:
the characters matched by the pattern's lookarounds via the escape for whitespace. -/
def wsChar (c : Char) : Bool :=
  c = ' ' || c = '\t' || c = '\n' || c = '\r' || c = '\x0b' || c = '\x0c'

/-- The regular-expression dot: any character except a line terminator. -/
def dotChar (c : Char) : Bool := !(c = '\n' || c = '\r')

/-- Whether the dot quantifier can consume the first `len` characters of `s`. -/
def spanOK (s : List Char) (len : Nat) : Bool :=
  decide (len ≤ s.length) && (s.take len).all dotChar

/-- The trailing lookahead of the pattern: after the match comes whitespace
or the end of the input. -/
def boundaryOK (s : List Char) (len : Nat) : Bool :=
  wsChar ((s.drop len).headD ' ')

/-- Greedy backtracking of the bounded quantifier: the longest admissible match
length below the column limit, if any. -/
def tryLen (s : List Char) : Nat → Option Nat
  | 0 => none
  | len + 1 =>
    if spanOK s (len + 1) && boundaryOK s (len + 1) then some (len + 1)
    else tryLen s len

/-- One attempt of the pattern at the current position: the leading negative
lookahead rejects whitespace, then the quantifier matches greedily. -/
def tryMatch (s : List Char) (columns : Nat) : Option Nat :=
  match s with
  | [] => none
  | c :: _ => if wsChar c then none else tryLen s columns

/-- The global scan of `String.prototype.match`: on failure advance one
character, on success continue after the match. -/
def scanG : Nat → List Char → Nat → List (List Char)
  | 0, _, _ => []
  | _ + 1, [], _ => []
  | fuel + 1, c :: rest, columns =>
    match tryMatch (c :: rest) columns with
    | some len => (c :: rest).take len :: scanG fuel ((c :: rest).drop len) columns
    | none => scanG fuel rest columns

/-- All matches of the wrapping pattern in `text`. -/
def matchAll (text : List Char) (columns : Nat) : List (List Char) :=
  scanG text.length text columns

/-- Translation of `wrapText`: the list of yielded lines; `none` models the
`TypeError` thrown when `match` returns `null` and the generator iterates it. -/
def wrapText (text : List Char) (columns : Nat) : Option (List (List Char)) :=
  match matchAll text columns with
  | [] => none
  | l :: ls => some (l :: ls)

/-- Joining lines (or words) with single spaces. -/
def joinSpace : List (List Char) → List Char
  | [] => []
  | [w] => w
  | w :: w2 :: ws => w ++ ' ' :: joinSpace (w2 :: ws)

/-- The maximal whitespace-free words of a text, in order. -/
def wordsAux : Nat → List Char → List (List Char)
  | 0, _ => []
  | fuel + 1, s =>
    match s.dropWhile wsChar with
    | [] => []
    | c :: rest =>
      (c :: rest).takeWhile (fun x => !wsChar x) ::
        wordsAux fuel ((c :: rest).dropWhile (fun x => !wsChar x))

/-- Word list of a text. -/
def wordsOf (s : List Char) : List (List Char) := wordsAux (s.length + 1) s

example : wrapText ("The String global object is a constructor for strings".data) 12 =
    some ["The String".data, "global".data, "object is a".data, "constructor".data,
      "for strings".data] := by decide

/-- C3 counterexample: on the text "a  b" (double space) with 3 columns, every
word has length at most 3, yet the yielded lines are "a " and "b": joining them
with single spaces gives back "a  b", not the whitespace-normalized text "a b". -/
theorem wrapText_join_not_normalized :
    wrapText ("a  b".data) 3 = some ["a ".data, "b".data] ∧
    (∀ w ∈ wordsOf ("a  b".data), w.length ≤ 3) ∧
    joinSpace ["a ".data, "b".data] ≠ joinSpace (wordsOf ("a  b".data)) := by
  decide

/-- A successful greedy length is admissible and within the bound. -/
theorem tryLen_some_spec (s : List Char) : ∀ (c l : Nat), tryLen s c = some l →
    1 ≤ l ∧ l ≤ c ∧ (spanOK s l && boundaryOK s l) = true
  | 0, l, h => by simp [tryLen] at h
  | c + 1, l, h => by
    rw [tryLen] at h
    by_cases hc : (spanOK s (c + 1) && boundaryOK s (c + 1)) = true
    · rw [if_pos hc] at h
      have h2 : c + 1 = l := by injection h
      subst h2
      exact ⟨by omega, le_refl _, hc⟩
    · rw [if_neg hc] at h
      have := tryLen_some_spec s c l h
      exact ⟨this.1, by omega, this.2.2⟩

/-- Maximality of the greedy length. -/
theorem tryLen_some_max (s : List Char) : ∀ (c l : Nat), tryLen s c = some l →
    ∀ l2, l < l2 → l2 ≤ c → (spanOK s l2 && boundaryOK s l2) = false
  | 0, l, h => by simp [tryLen] at h
  | c + 1, l, h => by
    intro l2 hl hl2
    rw [tryLen] at h
    by_cases hc : (spanOK s (c + 1) && boundaryOK s (c + 1)) = true
    · rw [if_pos hc] at h
      have h2 : c + 1 = l := by injection h
      exact absurd hl2 (by omega)
    · rw [if_neg hc] at h
      by_cases he : l2 = c + 1
      · rw [he]
        simpa using hc
      · exact tryLen_some_max s c l h l2 hl (by omega)

/-- Building the greedy length from admissibility and maximality. -/
theorem tryLen_eq_some (s : List Char) (l : Nat)
    (hgood : (spanOK s l && boundaryOK s l) = true) (h1 : 1 ≤ l) : ∀ (c : Nat), l ≤ c →
    (∀ l2, l < l2 → l2 ≤ c → (spanOK s l2 && boundaryOK s l2) = false) →
    tryLen s c = some l
  | 0, hc, _ => absurd hc (by omega)
  | c + 1, hc, hmax => by
    rw [tryLen]
    by_cases he : l = c + 1
    · subst he
      rw [if_pos hgood]
    · have hf : (spanOK s (c + 1) && boundaryOK s (c + 1)) = false :=
        hmax (c + 1) (by omega) (le_refl _)
      rw [if_neg (by simp [hf])]
      exact tryLen_eq_some s l hgood h1 c (by omega) (fun l2 a b => hmax l2 a (by omega))

/-- Words are made of dot characters. -/
theorem dotChar_of_not_ws (ch : Char) (h : wsChar ch = false) : dotChar ch = true := by
  unfold wsChar at h
  unfold dotChar
  by_cases h1 : ch = '\n'
  · rw [h1] at h
    simp at h
  · by_cases h2 : ch = '\r'
    · rw [h2] at h
      simp at h
    · simp [h1, h2]

/-- Two or more words join with an explicit separator. -/
theorem joinSpace_cons_cons (w w2 : List Char) (ws : List (List Char)) :
    joinSpace (w :: w2 :: ws) = w ++ ' ' :: joinSpace (w2 :: ws) := rfl

/-- Canonically joined text contains only dot characters. -/
theorem joinSpace_all_dot : ∀ (ws : List (List Char)),
    (∀ w ∈ ws, ∀ ch ∈ w, wsChar ch = false) →
    ∀ ch ∈ joinSpace ws, dotChar ch = true
  | [], _, ch, h => by simp [joinSpace] at h
  | [w], hW, ch, h => by
    rw [show joinSpace [w] = w from rfl] at h
    exact dotChar_of_not_ws ch (hW w (by simp) ch h)
  | w :: w2 :: ws, hW, ch, h => by
    rw [joinSpace_cons_cons] at h
    rcases List.mem_append.mp h with h1 | h1
    · exact dotChar_of_not_ws ch (hW w (by simp) ch h1)
    · rcases List.mem_cons.mp h1 with h2 | h2
      · rw [h2]
        rfl
      · exact joinSpace_all_dot (w2 :: ws)
          (fun u hu => hW u (List.mem_cons_of_mem w hu)) ch h2

/-- The span check reduces to a length check on dot-only text. -/
theorem spanOK_of_all_dot (s : List Char) (hdot : ∀ ch ∈ s, dotChar ch = true)
    (len : Nat) (h : len ≤ s.length) : spanOK s len = true := by
  unfold spanOK
  rw [decide_eq_true h, Bool.true_and, List.all_eq_true]
  intro x hx
  exact hdot x (List.mem_of_mem_take hx)

/-- The span check fails past the end of the text. -/
theorem spanOK_false_of_gt (s : List Char) (len : Nat) (h : s.length < len) :
    spanOK s len = false := by
  unfold spanOK
  rw [decide_eq_false (by omega), Bool.false_and]

/-- The boundary check fails strictly inside a leading word. -/
theorem boundaryOK_in_word (w r : List Char) (len : Nat) (hlen : len < w.length)
    (hw : ∀ ch ∈ w, wsChar ch = false) : boundaryOK (w ++ r) len = false := by
  unfold boundaryOK
  rw [List.drop_append_eq_append_drop, List.drop_eq_getElem_cons hlen,
    List.cons_append, List.headD_cons]
  exact hw _ (List.getElem_mem _)

/-- Dropping past the leading word and its separator lands in the tail text. -/
theorem drop_join_shift (w J : List Char) (len : Nat) (h : w.length + 1 ≤ len) :
    (w ++ ' ' :: J).drop len = J.drop (len - w.length - 1) := by
  rw [List.drop_append_eq_append_drop, List.drop_eq_nil_of_le (by omega),
    List.nil_append, show len - w.length = (len - w.length - 1) + 1 by omega,
    List.drop_succ_cons]
  congr 1

/-- The boundary check past the separator delegates to the tail text. -/
theorem boundaryOK_shift (w J : List Char) (len : Nat) (h : w.length + 1 ≤ len) :
    boundaryOK (w ++ ' ' :: J) len = boundaryOK J (len - w.length - 1) := by
  unfold boundaryOK
  rw [drop_join_shift w J len h]

/-- Greedy grouping: the words the first emitted line takes, and the rest. -/
def greedySplit : Nat → List (List Char) → List (List Char) × List (List Char)
  | _, [] => ([], [])
  | _, [w] => ([w], [])
  | cols, w :: w2 :: ws =>
    if w.length + 1 + w2.length ≤ cols then
      (w :: (greedySplit (cols - w.length - 1) (w2 :: ws)).1,
        (greedySplit (cols - w.length - 1) (w2 :: ws)).2)
    else ([w], w2 :: ws)

/-- The greedy split is a split. -/
theorem greedySplit_append : ∀ (cols : Nat) (ws : List (List Char)),
    (greedySplit cols ws).1 ++ (greedySplit cols ws).2 = ws
  | _, [] => rfl
  | _, [_] => rfl
  | cols, w :: w2 :: ws => by
    rw [greedySplit]
    by_cases h : w.length + 1 + w2.length ≤ cols
    · rw [if_pos h]
      dsimp only
      rw [List.cons_append, greedySplit_append (cols - w.length - 1) (w2 :: ws)]
    · rw [if_neg h]
      rfl

/-- The greedy split takes at least one word. -/
theorem greedySplit_fst_ne : ∀ (cols : Nat) (ws : List (List Char)), ws ≠ [] →
    (greedySplit cols ws).1 ≠ []
  | _, [], h => absurd rfl h
  | _, [w], _ => by simp [greedySplit]
  | cols, w :: w2 :: ws, _ => by
    rw [greedySplit]
    by_cases h : w.length + 1 + w2.length ≤ cols
    · rw [if_pos h]
      simp
    · rw [if_neg h]
      simp

/-- The first line assembled by the greedy split respects the column limit. -/
theorem greedySplit_joined_le : ∀ (cols : Nat) (ws : List (List Char)), ws ≠ [] →
    (ws.head?.getD []).length ≤ cols →
    (joinSpace (greedySplit cols ws).1).length ≤ cols
  | _, [], h, _ => absurd rfl h
  | cols, [w], _, hh => by
    simpa [greedySplit, joinSpace] using hh
  | cols, w :: w2 :: ws, _, hh => by
    rw [greedySplit]
    by_cases h : w.length + 1 + w2.length ≤ cols
    · rw [if_pos h]
      dsimp only
      have ih := greedySplit_joined_le (cols - w.length - 1) (w2 :: ws) (by simp)
        (by simpa using by omega : ((w2 :: ws).head?.getD []).length ≤ cols - w.length - 1)
      obtain ⟨x, xs, hx⟩ : ∃ x xs, (greedySplit (cols - w.length - 1) (w2 :: ws)).1 = x :: xs := by
        rcases hg : (greedySplit (cols - w.length - 1) (w2 :: ws)).1 with _ | ⟨x, xs⟩
        · exact absurd hg (greedySplit_fst_ne _ _ (by simp))
        · exact ⟨x, xs, rfl⟩
      rw [hx]
      rw [hx] at ih
      rw [joinSpace_cons_cons]
      simp only [List.length_append, List.length_cons]
      omega
    · rw [if_neg h]
      simpa [joinSpace] using hh

/-- A successful span fits in the text. -/
theorem spanOK_le (s : List Char) (len : Nat) (h : spanOK s len = true) :
    len ≤ s.length := by
  unfold spanOK at h
  rw [Bool.and_eq_true] at h
  exact of_decide_eq_true h.1

/-- The pattern attempt at a non-whitespace character runs the quantifier. -/
theorem tryMatch_cons (c : Char) (rest : List Char) (cols : Nat)
    (h : wsChar c = false) : tryMatch (c :: rest) cols = tryLen (c :: rest) cols := by
  simp [tryMatch, h]

/-- The pattern attempt at a whitespace character fails on the lookahead. -/
theorem tryMatch_ws (c : Char) (rest : List Char) (cols : Nat)
    (h : wsChar c = true) : tryMatch (c :: rest) cols = none := by
  simp [tryMatch, h]

/-- A nonempty word list joins to its head word followed by the joined tail. -/
theorem joinSpace_cons_decomp (w2 : List Char) (ws : List (List Char)) :
    joinSpace (w2 :: ws) = w2 ++ (if ws.isEmpty then [] else ' ' :: joinSpace ws) := by
  cases ws with
  | nil => simp [joinSpace]
  | cons a l => rfl

/-- The first match of the wrapping pattern on canonically joined words takes
exactly the greedy group of words: its length, the matched text, and the rest. -/
theorem firstMatch_eq : ∀ (cols : Nat) (ws : List (List Char)), ws ≠ [] →
    (∀ w ∈ ws, w ≠ [] ∧ ∀ ch ∈ w, wsChar ch = false) →
    (ws.head?.getD []).length ≤ cols →
    tryMatch (joinSpace ws) cols = some ((joinSpace (greedySplit cols ws).1).length) ∧
    (joinSpace ws).take ((joinSpace (greedySplit cols ws).1).length) =
      joinSpace (greedySplit cols ws).1 ∧
    (joinSpace ws).drop ((joinSpace (greedySplit cols ws).1).length) =
      (if (greedySplit cols ws).2.isEmpty then []
       else ' ' :: joinSpace (greedySplit cols ws).2)
  | _, [], h, _, _ => absurd rfl h
  | cols, [w], _, hW, hh => by
    have hw := hW w (by simp)
    obtain ⟨c, w', rfl⟩ : ∃ c w', w = c :: w' := by
      cases w with
      | nil => exact absurd rfl hw.1
      | cons c w' => exact ⟨c, w', rfl⟩
    rw [show greedySplit cols [c :: w'] = ([c :: w'], []) from rfl]
    rw [show joinSpace [c :: w'] = c :: w' from rfl]
    have hdot : ∀ ch ∈ (c :: w'), dotChar ch = true :=
      fun ch hch => dotChar_of_not_ws ch (hw.2 ch hch)
    have hbnd : boundaryOK (c :: w') (c :: w').length = true := by
      unfold boundaryOK
      rw [List.drop_length]
      rfl
    have hgood : (spanOK (c :: w') (c :: w').length &&
        boundaryOK (c :: w') (c :: w').length) = true := by
      rw [spanOK_of_all_dot _ hdot _ (le_refl _), hbnd]
      rfl
    refine ⟨?_, List.take_length _, ?_⟩
    · rw [tryMatch_cons c w' cols (hw.2 c (by simp))]
      refine tryLen_eq_some _ _ hgood (by simp) cols (by simpa using hh) ?_
      intro l2 hl2 _
      rw [spanOK_false_of_gt _ _ hl2, Bool.false_and]
    · rw [List.drop_length]
      rfl
  | cols, w :: w2 :: ws, _, hW, hh => by
    have hww := hW w (by simp)
    have hw2 := hW w2 (by simp)
    obtain ⟨c, w', rfl⟩ : ∃ c w', w = c :: w' := by
      cases w with
      | nil => exact absurd rfl hww.1
      | cons c w' => exact ⟨c, w', rfl⟩
    obtain ⟨c2, w2', rfl⟩ : ∃ c2 w2', w2 = c2 :: w2' := by
      cases w2 with
      | nil => exact absurd rfl hw2.1
      | cons c2 w2' => exact ⟨c2, w2', rfl⟩
    have hhw : ((c :: w') : List Char).length ≤ cols := by simpa using hh
    have hcanTail : ∀ u ∈ (c2 :: w2') :: ws, u ≠ [] ∧ ∀ ch ∈ u, wsChar ch = false :=
      fun u hu => hW u (List.mem_cons_of_mem _ hu)
    have hsdot : ∀ ch ∈ joinSpace ((c :: w') :: (c2 :: w2') :: ws), dotChar ch = true :=
      joinSpace_all_dot _ (fun u hu => (hW u hu).2)
    have hJdot : ∀ ch ∈ joinSpace ((c2 :: w2') :: ws), dotChar ch = true :=
      joinSpace_all_dot _ (fun u hu => (hcanTail u hu).2)
    have hslen : (joinSpace ((c :: w') :: (c2 :: w2') :: ws)).length =
        ((c :: w') : List Char).length + 1 + (joinSpace ((c2 :: w2') :: ws)).length := by
      rw [joinSpace_cons_cons]
      simp only [List.length_append, List.length_cons]
      omega
    by_cases hif : ((c :: w') : List Char).length + 1 +
        ((c2 :: w2') : List Char).length ≤ cols
    · have ihne : ((c2 :: w2') :: ws : List (List Char)) ≠ [] := by simp
      have ihh : (((c2 :: w2') :: ws : List (List Char)).head?.getD []).length ≤
          cols - ((c :: w') : List Char).length - 1 := by
        simp only [List.head?_cons, Option.getD_some]
        omega
      obtain ⟨ih1, ih2, ih3⟩ :=
        firstMatch_eq (cols - ((c :: w') : List Char).length - 1) ((c2 :: w2') :: ws)
          ihne hcanTail ihh
      have hJ : joinSpace ((c2 :: w2') :: ws) =
          c2 :: (w2' ++ (if (ws : List (List Char)).isEmpty then []
            else ' ' :: joinSpace ws)) := by
        rw [joinSpace_cons_decomp, List.cons_append]
      have htryJ : tryLen (joinSpace ((c2 :: w2') :: ws))
          (cols - ((c :: w') : List Char).length - 1) =
          some ((joinSpace (greedySplit (cols - ((c :: w') : List Char).length - 1)
            ((c2 :: w2') :: ws)).1).length) := by
        rw [hJ, ← tryMatch_cons c2 _ _ (hw2.2 c2 (by simp)), ← hJ]
        exact ih1
      obtain ⟨hL1, hLle, hgood2⟩ := tryLen_some_spec _ _ _ htryJ
      rw [Bool.and_eq_true] at hgood2
      have hLlen : (joinSpace (greedySplit (cols - ((c :: w') : List Char).length - 1)
          ((c2 :: w2') :: ws)).1).length ≤ (joinSpace ((c2 :: w2') :: ws)).length :=
        spanOK_le _ _ hgood2.1
      have hgs : greedySplit cols ((c :: w') :: (c2 :: w2') :: ws) =
          ((c :: w') :: (greedySplit (cols - ((c :: w') : List Char).length - 1)
              ((c2 :: w2') :: ws)).1,
            (greedySplit (cols - ((c :: w') : List Char).length - 1)
              ((c2 :: w2') :: ws)).2) := by
        rw [greedySplit, if_pos hif]
      obtain ⟨x, xs, hx⟩ : ∃ x xs,
          (greedySplit (cols - ((c :: w') : List Char).length - 1)
            ((c2 :: w2') :: ws)).1 = x :: xs := by
        rcases hg : (greedySplit (cols - ((c :: w') : List Char).length - 1)
            ((c2 :: w2') :: ws)).1 with _ | ⟨x, xs⟩
        · exact absurd hg (greedySplit_fst_ne _ _ (by simp))
        · exact ⟨x, xs, rfl⟩
      have hLeq : (joinSpace ((c :: w') :: (greedySplit (cols - ((c :: w') :
            List Char).length - 1) ((c2 :: w2') :: ws)).1)).length =
          ((c :: w') : List Char).length + 1 +
            (joinSpace (greedySplit (cols - ((c :: w') : List Char).length - 1)
              ((c2 :: w2') :: ws)).1).length := by
        rw [hx, joinSpace_cons_cons]
        simp only [List.length_append, List.length_cons]
        omega
      rw [hgs]
      dsimp only
      rw [hLeq]
      have hsW : joinSpace ((c :: w') :: (c2 :: w2') :: ws) =
          (c :: w') ++ ' ' :: joinSpace ((c2 :: w2') :: ws) := joinSpace_cons_cons _ _ _
      have hbndl : boundaryOK (joinSpace ((c :: w') :: (c2 :: w2') :: ws))
          (((c :: w') : List Char).length + 1 +
            (joinSpace (greedySplit (cols - ((c :: w') : List Char).length - 1)
              ((c2 :: w2') :: ws)).1).length) = true := by
        rw [hsW, boundaryOK_shift _ _ _ (by omega)]
        rw [show ((c :: w') : List Char).length + 1 +
            (joinSpace (greedySplit (cols - ((c :: w') : List Char).length - 1)
              ((c2 :: w2') :: ws)).1).length - ((c :: w') : List Char).length - 1 =
            (joinSpace (greedySplit (cols - ((c :: w') : List Char).length - 1)
              ((c2 :: w2') :: ws)).1).length by omega]
        exact hgood2.2
      have hgoodl : (spanOK (joinSpace ((c :: w') :: (c2 :: w2') :: ws))
            (((c :: w') : List Char).length + 1 +
              (joinSpace (greedySplit (cols - ((c :: w') : List Char).length - 1)
                ((c2 :: w2') :: ws)).1).length) &&
          boundaryOK (joinSpace ((c :: w') :: (c2 :: w2') :: ws))
            (((c :: w') : List Char).length + 1 +
              (joinSpace (greedySplit (cols - ((c :: w') : List Char).length - 1)
                ((c2 :: w2') :: ws)).1).length)) = true := by
        rw [spanOK_of_all_dot _ hsdot _ (by omega), hbndl]
        rfl
      refine ⟨?_, ?_, ?_⟩
      · rw [hsW, List.cons_append, tryMatch_cons c _ _ (hww.2 c (by simp)),
          ← List.cons_append, ← hsW]
        refine tryLen_eq_some _ _ hgoodl (by omega) cols (by omega) ?_
        intro l2 hl2 hl2c
        by_cases hsl : l2 ≤ (joinSpace ((c :: w') :: (c2 :: w2') :: ws)).length
        · have hb := tryLen_some_max _ _ _ htryJ
            (l2 - ((c :: w') : List Char).length - 1) (by omega) (by omega)
          have hspan2 : spanOK (joinSpace ((c2 :: w2') :: ws))
              (l2 - ((c :: w') : List Char).length - 1) = true :=
            spanOK_of_all_dot _ hJdot _ (by omega)
          rw [hspan2, Bool.true_and] at hb
          rw [hsW, boundaryOK_shift _ _ _ (by omega), hb, Bool.and_false]
        · rw [spanOK_false_of_gt _ _ (by omega), Bool.false_and]
      · rw [hsW, List.take_append_eq_append_take,
          List.take_of_length_le (show ((c :: w') : List Char).length ≤
            ((c :: w') : List Char).length + 1 +
              (joinSpace (greedySplit (cols - ((c :: w') : List Char).length - 1)
                ((c2 :: w2') :: ws)).1).length by omega),
          show ((c :: w') : List Char).length + 1 +
            (joinSpace (greedySplit (cols - ((c :: w') : List Char).length - 1)
              ((c2 :: w2') :: ws)).1).length - ((c :: w') : List Char).length =
            (joinSpace (greedySplit (cols - ((c :: w') : List Char).length - 1)
              ((c2 :: w2') :: ws)).1).length + 1 by omega,
          List.take_succ_cons, ih2, hx, joinSpace_cons_cons]
      · rw [hsW, drop_join_shift _ _ _ (by omega),
          show ((c :: w') : List Char).length + 1 +
            (joinSpace (greedySplit (cols - ((c :: w') : List Char).length - 1)
              ((c2 :: w2') :: ws)).1).length - ((c :: w') : List Char).length - 1 =
            (joinSpace (greedySplit (cols - ((c :: w') : List Char).length - 1)
              ((c2 :: w2') :: ws)).1).length by omega]
        exact ih3
    · have hgs : greedySplit cols ((c :: w') :: (c2 :: w2') :: ws) =
          ([c :: w'], (c2 :: w2') :: ws) := by
        rw [greedySplit, if_neg hif]
      rw [hgs]
      dsimp only
      rw [show joinSpace [c :: w'] = c :: w' from rfl]
      have hsW : joinSpace ((c :: w') :: (c2 :: w2') :: ws) =
          (c :: w') ++ ' ' :: joinSpace ((c2 :: w2') :: ws) := joinSpace_cons_cons _ _ _
      have hbnd : boundaryOK (joinSpace ((c :: w') :: (c2 :: w2') :: ws))
          ((c :: w') : List Char).length = true := by
        rw [hsW]
        unfold boundaryOK
        rw [List.drop_left, List.headD_cons]
        rfl
      have hgoodw : (spanOK (joinSpace ((c :: w') :: (c2 :: w2') :: ws))
            ((c :: w') : List Char).length &&
          boundaryOK (joinSpace ((c :: w') :: (c2 :: w2') :: ws))
            ((c :: w') : List Char).length) = true := by
        rw [spanOK_of_all_dot _ hsdot _ (by omega), hbnd]
        rfl
      refine ⟨?_, ?_, ?_⟩
      · rw [hsW, List.cons_append, tryMatch_cons c _ _ (hww.2 c (by simp)),
          ← List.cons_append, ← hsW]
        refine tryLen_eq_some _ _ hgoodw (by simp) cols hhw ?_
        intro l2 hl2 hl2c
        have hJw2 : joinSpace ((c2 :: w2') :: ws) =
            (c2 :: w2') ++ (if (ws : List (List Char)).isEmpty then []
              else ' ' :: joinSpace ws) := joinSpace_cons_decomp _ _
        have hbf : boundaryOK (joinSpace ((c2 :: w2') :: ws))
            (l2 - ((c :: w') : List Char).length - 1) = false := by
          rw [hJw2]
          exact boundaryOK_in_word _ _ _ (by omega) hw2.2
        rw [hsW, boundaryOK_shift _ _ _ (by omega), hbf, Bool.and_false]
      · rw [hsW, List.take_left]
      · rw [hsW, List.drop_left]
        rfl

/-- The scan of the empty text yields nothing. -/
theorem scanG_nil (cols : Nat) : ∀ (fuel : Nat), scanG fuel [] cols = []
  | 0 => rfl
  | _ + 1 => rfl

/-- The scan of canonically joined words emits greedy groups of whole words. -/
theorem scan_canonical (cols : Nat) : ∀ (N : Nat) (ws : List (List Char)) (fuel : Nat),
    ws.length ≤ N → ws ≠ [] →
    (∀ w ∈ ws, w ≠ [] ∧ ∀ ch ∈ w, wsChar ch = false) →
    (∀ w ∈ ws, w.length ≤ cols) →
    (joinSpace ws).length ≤ fuel →
    ∃ gs : List (List (List Char)), gs ≠ [] ∧ (∀ g ∈ gs, g ≠ []) ∧
      gs.flatten = ws ∧ (∀ g ∈ gs, (joinSpace g).length ≤ cols) ∧
      scanG fuel (joinSpace ws) cols = gs.map joinSpace
  | 0, ws, _, hN, hne, _, _, _ => absurd (List.length_eq_zero.mp (by omega)) hne
  | N + 1, ws, fuel, hN, hne, hW, hL, hfuel => by
    obtain ⟨w, tail, rfl⟩ : ∃ w tail, ws = w :: tail := by
      cases ws with
      | nil => exact absurd rfl hne
      | cons w tail => exact ⟨w, tail, rfl⟩
    have hw := hW w (by simp)
    obtain ⟨c, w', rfl⟩ : ∃ c w', w = c :: w' := by
      cases w with
      | nil => exact absurd rfl hw.1
      | cons c w' => exact ⟨c, w', rfl⟩
    obtain ⟨hm1, hm2, hm3⟩ := firstMatch_eq cols ((c :: w') :: tail) (by simp) hW
      (by simpa using hL (c :: w') (by simp))
    have hsform : ∃ srest, joinSpace ((c :: w') :: tail) = c :: srest := by
      rw [joinSpace_cons_decomp, List.cons_append]
      exact ⟨_, rfl⟩
    obtain ⟨srest, hs⟩ := hsform
    have hslen1 : 1 ≤ (joinSpace ((c :: w') :: tail)).length := by
      rw [hs]
      simp
    obtain ⟨f, rfl⟩ : ∃ f, fuel = f + 1 := by
      cases fuel with
      | zero => exact absurd hfuel (by omega)
      | succ f => exact ⟨f, rfl⟩
    have hg1 := greedySplit_append cols ((c :: w') :: tail)
    have hg2 := greedySplit_fst_ne cols ((c :: w') :: tail) (by simp)
    have hg3 := greedySplit_joined_le cols ((c :: w') :: tail) (by simp)
      (by simpa using hL (c :: w') (by simp))
    have hscan1 : scanG (f + 1) (joinSpace ((c :: w') :: tail)) cols =
        joinSpace (greedySplit cols ((c :: w') :: tail)).1 ::
          scanG f ((joinSpace ((c :: w') :: tail)).drop
            ((joinSpace (greedySplit cols ((c :: w') :: tail)).1).length)) cols := by
      have hm1s : tryMatch (c :: srest) cols =
          some ((joinSpace (greedySplit cols ((c :: w') :: tail)).1).length) := by
        rw [← hs]
        exact hm1
      rw [hs, scanG, hm1s]
      dsimp only
      rw [← hs, hm2]
    have hmemws : ∀ u ∈ (greedySplit cols ((c :: w') :: tail)).1, u ∈ (c :: w') :: tail := by
      intro u hu
      rw [← hg1]
      exact List.mem_append_left _ hu
    have hjoinpos : 1 ≤ (joinSpace (greedySplit cols ((c :: w') :: tail)).1).length := by
      obtain ⟨x, xs, hx⟩ : ∃ x xs, (greedySplit cols ((c :: w') :: tail)).1 = x :: xs := by
        rcases hgg : (greedySplit cols ((c :: w') :: tail)).1 with _ | ⟨x, xs⟩
        · exact absurd hgg hg2
        · exact ⟨x, xs, rfl⟩
      have hxne := (hW x (hmemws x (by rw [hx]; simp))).1
      obtain ⟨cx, wx', rfl⟩ : ∃ cx wx', x = cx :: wx' := by
        cases x with
        | nil => exact absurd rfl hxne
        | cons cx wx' => exact ⟨cx, wx', rfl⟩
      rw [hx, joinSpace_cons_decomp, List.cons_append]
      simp
    rcases hrest : (greedySplit cols ((c :: w') :: tail)).2 with _ | ⟨r, rs⟩
    · rw [hrest] at hg1
      have hdrop : (joinSpace ((c :: w') :: tail)).drop
          ((joinSpace (greedySplit cols ((c :: w') :: tail)).1).length) = [] := by
        rw [hm3, hrest]
        rfl
      refine ⟨[(greedySplit cols ((c :: w') :: tail)).1], by simp, ?_, ?_, ?_, ?_⟩
      · intro g hg
        rw [List.mem_singleton.mp hg]
        exact hg2
      · simpa using hg1
      · intro g hg
        rw [List.mem_singleton.mp hg]
        exact hg3
      · rw [hscan1, hdrop, scanG_nil]
        rfl
    · rw [hrest] at hg1
      have hdrop : (joinSpace ((c :: w') :: tail)).drop
          ((joinSpace (greedySplit cols ((c :: w') :: tail)).1).length) =
          ' ' :: joinSpace (r :: rs) := by
        rw [hm3, hrest]
        rfl
      have hdecomp := List.take_append_drop
        ((joinSpace (greedySplit cols ((c :: w') :: tail)).1).length)
        (joinSpace ((c :: w') :: tail))
      rw [hm2, hdrop] at hdecomp
      have hlen2 : (joinSpace ((c :: w') :: tail)).length =
          (joinSpace (greedySplit cols ((c :: w') :: tail)).1).length + 1 +
            (joinSpace (r :: rs)).length := by
        rw [← hdecomp]
        simp only [List.length_append, List.length_cons]
        omega
      obtain ⟨f2, rfl⟩ : ∃ f2, f = f2 + 1 := ⟨f - 1, by omega⟩
      have hz : scanG (f2 + 1) (' ' :: joinSpace (r :: rs)) cols =
          scanG f2 (joinSpace (r :: rs)) cols := by
        rw [scanG, tryMatch_ws ' ' _ _ rfl]
      have hlng := congrArg List.length hg1
      rw [List.length_append] at hlng
      have hG1pos : 1 ≤ (greedySplit cols ((c :: w') :: tail)).1.length :=
        List.length_pos.mpr hg2
      obtain ⟨gs', hgs1, hgs2, hgs3, hgs4, hgs5⟩ := scan_canonical cols N (r :: rs) f2
        (by simp only [List.length_cons] at hlng hN ⊢; omega)
        (by simp)
        (fun u hu => hW u (hg1 ▸ List.mem_append_right _ hu))
        (fun u hu => hL u (hg1 ▸ List.mem_append_right _ hu))
        (by omega)
      refine ⟨(greedySplit cols ((c :: w') :: tail)).1 :: gs', by simp, ?_, ?_, ?_, ?_⟩
      · intro g hg
        rcases List.mem_cons.mp hg with h | h
        · rw [h]
          exact hg2
        · exact hgs2 g h
      · rw [List.flatten_cons, hgs3, hg1]
      · intro g hg
        rcases List.mem_cons.mp hg with h | h
        · rw [h]
          exact hg3
        · exact hgs4 g h
      · rw [hscan1, hdrop, hz, hgs5]
        rfl

/-- Joining a concatenation of two nonempty word lists. -/
theorem joinSpace_append : ∀ (a b : List (List Char)), a ≠ [] → b ≠ [] →
    joinSpace (a ++ b) = joinSpace a ++ ' ' :: joinSpace b
  | [], _, ha, _ => absurd rfl ha
  | [x], b, _, hb => by
    cases b with
    | nil => exact absurd rfl hb
    | cons y b => rfl
  | x :: x2 :: a2, b, _, hb => by
    rw [show (x :: x2 :: a2) ++ b = x :: ((x2 :: a2) ++ b) from rfl]
    rw [show (x2 :: a2) ++ b = x2 :: (a2 ++ b) from rfl]
    rw [joinSpace_cons_cons]
    rw [show x2 :: (a2 ++ b) = (x2 :: a2) ++ b from rfl]
    rw [joinSpace_append (x2 :: a2) b (by simp) hb]
    rw [joinSpace_cons_cons, List.append_assoc, List.cons_append]

/-- Joining the lines equals joining the underlying words when every
line is a nonempty group of words. -/
theorem joinSpace_flatten : ∀ (gs : List (List (List Char))),
    (∀ g ∈ gs, g ≠ []) → joinSpace (gs.map joinSpace) = joinSpace gs.flatten
  | [], _ => rfl
  | [g], _ => by simp [joinSpace]
  | g :: g2 :: gs, hg => by
    have hflat_ne : (List.flatten (g2 :: gs) : List (List Char)) ≠ [] := by
      rw [List.flatten_cons]
      have := hg g2 (by simp)
      intro hcontra
      rcases List.append_eq_nil.mp hcontra with ⟨h1, _⟩
      exact this h1
    rw [List.map_cons, List.map_cons, joinSpace_cons_cons,
      show (joinSpace g2 :: List.map joinSpace gs) = List.map joinSpace (g2 :: gs) from rfl,
      joinSpace_flatten (g2 :: gs) (fun u hu => hg u (List.mem_cons_of_mem _ hu))]
    rw [show ((g :: g2 :: gs).flatten : List (List Char)) =
      g ++ (g2 :: gs).flatten from rfl]
    rw [joinSpace_append g ((g2 :: gs).flatten) (hg g (by simp)) hflat_ne]

/-- C3 (amended): on canonically spaced text - words joined by single spaces,
each word nonempty, whitespace-free and no longer than the column limit - the
lines yielded by `wrapText` are groups of whole consecutive words joined by
single spaces, every line fits the column limit, and joining the lines with
single spaces reconstructs the text. -/
theorem wrapText_canonical (ws : List (List Char)) (columns : Nat) (hne : ws ≠ [])
    (hW : ∀ w ∈ ws, w ≠ [] ∧ ∀ ch ∈ w, wsChar ch = false)
    (hL : ∀ w ∈ ws, w.length ≤ columns) :
    ∃ gs : List (List (List Char)), gs ≠ [] ∧ (∀ g ∈ gs, g ≠ []) ∧
      gs.flatten = ws ∧ (∀ g ∈ gs, (joinSpace g).length ≤ columns) ∧
      wrapText (joinSpace ws) columns = some (gs.map joinSpace) ∧
      joinSpace (gs.map joinSpace) = joinSpace ws := by
  obtain ⟨gs, h1, h2, h3, h4, h5⟩ := scan_canonical columns ws.length ws
    ((joinSpace ws).length) (le_refl _) hne hW hL (le_refl _)
  refine ⟨gs, h1, h2, h3, h4, ?_, ?_⟩
  · unfold wrapText matchAll
    rw [h5]
    obtain ⟨g0, gs', rfl⟩ : ∃ g0 gs', gs = g0 :: gs' := by
      cases gs with
      | nil => exact absurd rfl h1
      | cons g0 gs' => exact ⟨g0, gs', rfl⟩
    rfl
  · rw [joinSpace_flatten gs h2, h3]

/-- Concrete instance of the amended wrapping theorem. -/
theorem wrapText_canonical_witness :
    ∃ gs : List (List (List Char)), gs ≠ [] ∧ (∀ g ∈ gs, g ≠ []) ∧
      gs.flatten = ["ab".data, "c".data, "def".data] ∧
      (∀ g ∈ gs, (joinSpace g).length ≤ 4) ∧
      wrapText (joinSpace ["ab".data, "c".data, "def".data]) 4 =
        some (gs.map joinSpace) ∧
      joinSpace (gs.map joinSpace) = joinSpace ["ab".data, "c".data, "def".data] :=
  wrapText_canonical ["ab".data, "c".data, "def".data] 4 (by decide) (by decide)
    (by decide)
